import Mathlib

/-!
Verification development for the ChessGame repository (C++ sources under
`src/` and `include/`).  The data model (Piece, Board, Move), the legality
engine (`ChessLogic.cpp`) and the search engine (`AIPlayer.cpp`) are embedded
shallowly: every C++ member function becomes a Lean function on explicit
state.  C++ `int` is modelled as `Int` (no arithmetic in the modelled paths
overflows 32 bits; bounds are proved where a theorem needs them).  Functions
of `ChessLogic` that mutate the shared board through `const_cast` tricks are
modelled as state transformers returning the result together with the board
they leave behind, so that the mutation (or its absence) is provable.
-/

set_option maxHeartbeats 4000000
set_option maxRecDepth 10000

namespace Chess

/-- `PieceType` from Types.hpp. -/
inductive PieceType where
  | None | Pawn | Knight | Bishop | Rook | Queen | King
deriving DecidableEq

/-- `Color` from Types.hpp. -/
inductive Color where
  | None | White | Black
deriving DecidableEq

/-- `Position` from Types.hpp: a pair of C++ ints. -/
structure Position where
  row : Int
  col : Int
deriving DecidableEq

/-- `Position::isValid`: both coordinates in [0,8). -/
def Position.isValid (p : Position) : Bool :=
  decide (0 ≤ p.row ∧ p.row < 8 ∧ 0 ≤ p.col ∧ p.col < 8)

/-- `Piece` from Piece.hpp: type, color, hasMoved flag. -/
structure Piece where
  type : PieceType
  color : Color
  hasMoved : Bool
deriving DecidableEq

/-- Default-constructed `Piece()`: the empty-square sentinel. -/
def Piece.empty : Piece := ⟨PieceType.None, Color.None, false⟩

/-- `Piece(type, color)` constructor: hasMoved starts false. -/
def Piece.mk2 (t : PieceType) (c : Color) : Piece := ⟨t, c, false⟩

/-- `Piece::isEmpty`. -/
def Piece.isEmpty (p : Piece) : Bool := decide (p.type = PieceType.None)

/-- `Piece::setMoved`. -/
def Piece.setMoved (p : Piece) (m : Bool) : Piece := { p with hasMoved := m }

/-- `Move` from Types.hpp. -/
structure Move where
  from_ : Position
  to_ : Position
  promotion : PieceType := PieceType.None
  isCapture : Bool := false
  isCastling : Bool := false
  isEnPassant : Bool := false
deriving DecidableEq

/-- The C++ expression `Move{}` value-initializes every field: `from`/`to`
    get zero-initialized to (0,0), promotion to None, the three flags to
    false (Position has no default member initializers, so value
    initialization zeroes its ints). -/
def Move.defaultMove : Move :=
  ⟨⟨0, 0⟩, ⟨0, 0⟩, PieceType.None, false, false, false⟩

/-- The castling-rights array `std::array<bool,4> m_castlingRights`;
    per Board.hpp's comment the indices are
    [white kingside, white queenside, black kingside, black queenside]. -/
structure CastlingRights where
  wk : Bool
  wq : Bool
  bk : Bool
  bq : Bool
deriving DecidableEq

/-- `Board` from Board.hpp: the 8x8 grid (modelled as a total function on
    positions; out-of-range cells are unobservable because `getPiece`
    guards), the en-passant target, and the four castling flags. -/
structure Board where
  grid : Position → Piece
  enPassantTarget : Position
  castlingRights : CastlingRights

/-- `GameState` from Types.hpp. -/
inductive GameState where
  | MainMenu | Playing | Check | Checkmate | Stalemate | Draw
  | WhiteTimeout | BlackTimeout
deriving DecidableEq

/-- `AIDifficulty` from AIPlayer.hpp. -/
inductive AIDifficulty where
  | Easy | Medium | Hard | Expert
deriving DecidableEq

namespace Board

/-- `Board::getPiece`.  The C++ version indexes `m_board[row][col]` without a
    bound check (out-of-range access is undefined); the model returns the
    empty piece for out-of-range positions, which is never observable on the
    paths the C++ code actually executes (they all guard with `isValid`). -/
def getPiece (b : Board) (p : Position) : Piece :=
  if p.isValid then b.grid p else Piece.empty

/-- `Board::setPiece`. -/
def setPiece (b : Board) (p : Position) (piece : Piece) : Board :=
  { b with grid := fun q => if q = p then piece else b.grid q }

/-- `Board::removePiece`. -/
def removePiece (b : Board) (p : Position) : Board := setPiece b p Piece.empty

/-- `Board::movePiece`: copies the source square to the destination, sets
    its hasMoved flag, empties the source.  No legality checking. -/
def movePiece (b : Board) (from_ to_ : Position) : Board :=
  let piece := getPiece b from_
  setPiece (setPiece b to_ (piece.setMoved true)) from_ Piece.empty

/-- The row-major scan order used by `findKing` and `findPieces`. -/
def scanSquares : List Position :=
  (List.range 8).flatMap fun (r : Nat) =>
    (List.range 8).map fun (c : Nat) => { row := (r : Int), col := (c : Int) }

/-- `Board::findKing`: first king of the color in row-major order, or the
    invalid position (-1,-1). -/
def findKing (b : Board) (color : Color) : Position :=
  match scanSquares.find? (fun p =>
      decide ((getPiece b p).type = PieceType.King ∧ (getPiece b p).color = color)) with
  | some p => p
  | none => ⟨-1, -1⟩

/-- `Board::findPieces`: all squares whose piece has the given color, in
    row-major order. -/
def findPieces (b : Board) (color : Color) : List Position :=
  scanSquares.filter fun p => decide ((getPiece b p).color = color)

/-- `Board::canCastleKingside`. -/
def canCastleKingside (b : Board) (color : Color) : Bool :=
  if color = Color.White then b.castlingRights.wk else b.castlingRights.bk

/-- `Board::canCastleQueenside`. -/
def canCastleQueenside (b : Board) (color : Color) : Bool :=
  if color = Color.White then b.castlingRights.wq else b.castlingRights.bq

/-- `Board::disableCastling`. -/
def disableCastling (b : Board) (color : Color) (kingside : Bool) : Board :=
  if color = Color.White then
    if kingside then { b with castlingRights := { b.castlingRights with wk := false } }
    else { b with castlingRights := { b.castlingRights with wq := false } }
  else
    if kingside then { b with castlingRights := { b.castlingRights with bk := false } }
    else { b with castlingRights := { b.castlingRights with bq := false } }

/-- Modelled from the spec: `Board::getCastlingRights` is called by
    ChessLogic.cpp but its declaration is missing from the Board.hpp in the
    repository; per the spec the MoveRecord stores "the castling rights
    before the move", so it returns the whole four-flag state. -/
def getCastlingRights (b : Board) : CastlingRights := b.castlingRights

/-- Modelled from the spec: `Board::setCastlingRights` is called by
    ChessLogic.cpp's undoMove but missing from Board.hpp; per the spec undo
    "restores ... all four castling flags to their pre-move values", so it
    assigns the whole four-flag state. -/
def setCastlingRights (b : Board) (r : CastlingRights) : Board :=
  { b with castlingRights := r }

/-- `Board::getEnPassantTarget`. -/
def getEnPassantTarget (b : Board) : Position := b.enPassantTarget

/-- `Board::setEnPassantTarget`. -/
def setEnPassantTarget (b : Board) (p : Position) : Board :=
  { b with enPassantTarget := p }

/-- `Board::clearEnPassantTarget`. -/
def clearEnPassantTarget (b : Board) : Board :=
  { b with enPassantTarget := ⟨-1, -1⟩ }

/-- `backRank` piece layout from `Board::initialize`. -/
def backRankType (c : Int) : PieceType :=
  if c = 0 ∨ c = 7 then PieceType.Rook
  else if c = 1 ∨ c = 6 then PieceType.Knight
  else if c = 2 ∨ c = 5 then PieceType.Bishop
  else if c = 3 then PieceType.Queen
  else PieceType.King

/-- `Board::clear`: all squares empty, castling rights disabled, no
    en-passant target (also the state of a default-constructed Board). -/
def clear : Board :=
  { grid := fun _ => Piece.empty
    enPassantTarget := ⟨-1, -1⟩
    castlingRights := ⟨false, false, false, false⟩ }

/-- `Board::initialize` (renamed: `initialize` is reserved in Lean): the standard starting arrangement, all four
    castling rights enabled, no en-passant target. -/
def initialBoard : Board :=
  { grid := fun p =>
      if p.row = 1 then Piece.mk2 PieceType.Pawn Color.Black
      else if p.row = 6 then Piece.mk2 PieceType.Pawn Color.White
      else if p.row = 0 then Piece.mk2 (backRankType p.col) Color.Black
      else if p.row = 7 then Piece.mk2 (backRankType p.col) Color.White
      else Piece.empty
    enPassantTarget := ⟨-1, -1⟩
    castlingRights := ⟨true, true, true, true⟩ }

end Board

/-- The ubiquitous `(color == White) ? Black : White`. -/
def opponentOf (c : Color) : Color :=
  if c = Color.White then Color.Black else Color.White



namespace ChessLogic

open Board

/-- The state owned by `ChessLogic`: the referenced Board, `m_currentTurn`,
    and `m_moveHistory` (most recent record first; `push_back`/`back`/
    `pop_back` become cons/head/tail). -/
structure MoveRecord where
  move : Move
  movedPiece : Piece
  capturedPiece : Piece
  enPassantCapturePos : Position
  enPassantTarget : Position
  castlingRights : CastlingRights
  wasEnPassantCapture : Bool
deriving DecidableEq

/-- `ChessLogic`'s own state.  The board is the shared `Board&`. -/
structure LState where
  board : Board
  currentTurn : Color
  history : List MoveRecord

/-- One step of the path-clearance loops in `ChessLogic::isAttacked`:
    `for (int i = 1; i < steps; ++i)` checks that every strictly
    intermediate square of the line is empty. -/
def pathClear (b : Board) (att : Position) (rowStep colStep : Int) (steps : Nat) : Bool :=
  (List.range' 1 (steps - 1)).all fun i =>
    (getPiece b ⟨att.row + (i : Int) * rowStep, att.col + (i : Int) * colStep⟩).isEmpty

/-- The body of `ChessLogic::isAttacked`'s per-attacker switch: does the
    piece at `att` attack `pos`?  `byColor` is the color being scanned (the
    pawn direction depends on it, exactly as in the C++). -/
def attackFrom (b : Board) (byColor : Color) (att pos : Position) : Bool :=
  let attacker := getPiece b att
  let rowDiff := pos.row - att.row
  let colDiff := pos.col - att.col
  let absRowDiff := rowDiff.natAbs
  let absColDiff := colDiff.natAbs
  match attacker.type with
  | PieceType.Pawn =>
      let direction : Int := if byColor = Color.White then -1 else 1
      decide (rowDiff = direction ∧ absColDiff = 1)
  | PieceType.Knight =>
      decide ((absRowDiff = 2 ∧ absColDiff = 1) ∨ (absRowDiff = 1 ∧ absColDiff = 2))
  | PieceType.Bishop =>
      if absRowDiff = absColDiff ∧ absRowDiff > 0 then
        let rowStep : Int := if rowDiff > 0 then 1 else -1
        let colStep : Int := if colDiff > 0 then 1 else -1
        pathClear b att rowStep colStep absRowDiff
      else false
  | PieceType.Rook =>
      if (rowDiff = 0 ∨ colDiff = 0) ∧ absRowDiff + absColDiff > 0 then
        let rowStep : Int := if rowDiff = 0 then 0 else if rowDiff > 0 then 1 else -1
        let colStep : Int := if colDiff = 0 then 0 else if colDiff > 0 then 1 else -1
        pathClear b att rowStep colStep (max absRowDiff absColDiff)
      else false
  | PieceType.Queen =>
      let isDiagonal := absRowDiff = absColDiff ∧ absRowDiff > 0
      let isStraight := (rowDiff = 0 ∨ colDiff = 0) ∧ absRowDiff + absColDiff > 0
      if isDiagonal ∨ isStraight then
        let rowStep : Int := if rowDiff = 0 then 0 else if rowDiff > 0 then 1 else -1
        let colStep : Int := if colDiff = 0 then 0 else if colDiff > 0 then 1 else -1
        pathClear b att rowStep colStep (max absRowDiff absColDiff)
      else false
  | PieceType.King =>
      decide (absRowDiff ≤ 1 ∧ absColDiff ≤ 1 ∧ absRowDiff + absColDiff > 0)
  | PieceType.None => false

/-- `ChessLogic::isAttacked`: scans all pieces of `byColor` (in `findPieces`
    order, with early return modelled by `List.any`). -/
def isAttacked (b : Board) (pos : Position) (byColor : Color) : Bool :=
  (findPieces b byColor).any fun att => attackFrom b byColor att pos

/-- `ChessLogic::isInCheck`: king missing means NOT in check (the code
    returns false on an invalid king position); otherwise attacked by the
    opponent. -/
def isInCheck (b : Board) (color : Color) : Bool :=
  let kingPos := findKing b color
  if ¬kingPos.isValid then false
  else isAttacked b kingPos (opponentOf color)

/-- One sliding direction of `ChessLogic::getSlidingMoves`.  The C++ `while`
    loop walks until it leaves the board or hits a piece; since each step
    changes a coordinate by one, at most 8 iterations can pass the validity
    test, so fuel 8 reproduces the loop exactly. -/
def slideDir (b : Board) (color : Color) (pos : Position) :
    Nat → Position → Int → Int → List Move
  | 0, _, _, _ => []
  | fuel + 1, cur, dr, dc =>
      let target : Position := ⟨cur.row + dr, cur.col + dc⟩
      if ¬target.isValid then []
      else
        let targetPiece := getPiece b target
        if targetPiece.isEmpty then
          { from_ := pos, to_ := target } :: slideDir b color pos fuel target dr dc
        else if targetPiece.color ≠ color then
          [{ from_ := pos, to_ := target, promotion := PieceType.None, isCapture := true }]
        else []

/-- `ChessLogic::getSlidingMoves`. -/
def getSlidingMoves (b : Board) (pos : Position) (directions : List (Int × Int)) : List Move :=
  let color := (getPiece b pos).color
  directions.flatMap fun dir => slideDir b color pos 8 pos dir.1 dir.2

/-- `ChessLogic::getPawnMoves`. -/
def getPawnMoves (b : Board) (pos : Position) : List Move :=
  let pawn := getPiece b pos
  let color := pawn.color
  let direction : Int := if color = Color.White then -1 else 1
  let startRow : Int := if color = Color.White then 6 else 1
  let promotionRow : Int := if color = Color.White then 0 else 7
  let forward : Position := ⟨pos.row + direction, pos.col⟩
  let forwardMoves :=
    if forward.isValid ∧ (getPiece b forward).isEmpty = true then
      (if forward.row = promotionRow then
        [PieceType.Queen, PieceType.Rook, PieceType.Bishop, PieceType.Knight].map
          fun promo => { from_ := pos, to_ := forward, promotion := promo }
      else [{ from_ := pos, to_ := forward }]) ++
      (if pos.row = startRow then
        let doubleForward : Position := ⟨pos.row + 2 * direction, pos.col⟩
        if (getPiece b doubleForward).isEmpty then
          [{ from_ := pos, to_ := doubleForward }]
        else []
      else [])
    else []
  let captureMoves := [(-1 : Int), 1].flatMap fun colOffset =>
    let capturePos : Position := ⟨pos.row + direction, pos.col + colOffset⟩
    if ¬capturePos.isValid then []
    else
      let target := getPiece b capturePos
      let isCapture := ¬target.isEmpty ∧ target.color ≠ color
      let isEnPassant := capturePos = b.enPassantTarget
      if isCapture ∨ isEnPassant then
        if capturePos.row = promotionRow then
          [PieceType.Queen, PieceType.Rook, PieceType.Bishop, PieceType.Knight].map
            fun promo => { from_ := pos, to_ := capturePos, promotion := promo,
                           isCapture := true }
        else
          [{ from_ := pos, to_ := capturePos, promotion := PieceType.None,
             isCapture := decide isCapture, isCastling := false,
             isEnPassant := decide isEnPassant }]
      else []
  forwardMoves ++ captureMoves

/-- `ChessLogic::getKnightMoves`. -/
def getKnightMoves (b : Board) (pos : Position) : List Move :=
  let color := (getPiece b pos).color
  [((-2 : Int), (-1 : Int)), (-2, 1), (-1, -2), (-1, 2),
   (1, -2), (1, 2), (2, -1), (2, 1)].flatMap fun offset =>
    let target : Position := ⟨pos.row + offset.1, pos.col + offset.2⟩
    if ¬target.isValid then []
    else
      let targetPiece := getPiece b target
      if targetPiece.isEmpty ∨ targetPiece.color ≠ color then
        [{ from_ := pos, to_ := target, promotion := PieceType.None,
           isCapture := !targetPiece.isEmpty }]
      else []

/-- `ChessLogic::getBishopMoves`. -/
def getBishopMoves (b : Board) (pos : Position) : List Move :=
  getSlidingMoves b pos [(-1, -1), (-1, 1), (1, -1), (1, 1)]

/-- `ChessLogic::getRookMoves`. -/
def getRookMoves (b : Board) (pos : Position) : List Move :=
  getSlidingMoves b pos [(-1, 0), (1, 0), (0, -1), (0, 1)]

/-- `ChessLogic::getQueenMoves`. -/
def getQueenMoves (b : Board) (pos : Position) : List Move :=
  getSlidingMoves b pos [(-1, -1), (-1, 0), (-1, 1), (0, -1), (0, 1), (1, -1), (1, 0), (1, 1)]

/-- `ChessLogic::getKingMoves` (normal steps plus castling generation). -/
def getKingMoves (b : Board) (pos : Position) : List Move :=
  let king := getPiece b pos
  let color := king.color
  let normalMoves := [(-1 : Int), 0, 1].flatMap fun dr =>
    [(-1 : Int), 0, 1].flatMap fun dc =>
      if dr = 0 ∧ dc = 0 then []
      else
        let target : Position := ⟨pos.row + dr, pos.col + dc⟩
        if ¬target.isValid then []
        else
          let targetPiece := getPiece b target
          if targetPiece.isEmpty ∨ targetPiece.color ≠ color then
            [{ from_ := pos, to_ := target, promotion := PieceType.None,
               isCapture := !targetPiece.isEmpty }]
          else []
  let castleMoves :=
    if ¬king.hasMoved ∧ ¬(isInCheck b color) then
      let opp := opponentOf color
      let kingside :=
        if canCastleKingside b color then
          let rook := getPiece b ⟨pos.row, 7⟩
          if rook.type = PieceType.Rook ∧ ¬rook.hasMoved then
            let pathOk := (getPiece b ⟨pos.row, 5⟩).isEmpty ∧
                          (getPiece b ⟨pos.row, 6⟩).isEmpty
            let pathSafe := ¬(isAttacked b ⟨pos.row, 5⟩ opp) ∧
                            ¬(isAttacked b ⟨pos.row, 6⟩ opp)
            if pathOk ∧ pathSafe then
              [{ from_ := pos, to_ := ⟨pos.row, 6⟩, promotion := PieceType.None,
                 isCapture := false, isCastling := true }]
            else []
          else []
        else []
      let queenside :=
        if canCastleQueenside b color then
          let rook := getPiece b ⟨pos.row, 0⟩
          if rook.type = PieceType.Rook ∧ ¬rook.hasMoved then
            let pathOk := (getPiece b ⟨pos.row, 1⟩).isEmpty ∧
                          (getPiece b ⟨pos.row, 2⟩).isEmpty ∧
                          (getPiece b ⟨pos.row, 3⟩).isEmpty
            let pathSafe := ¬(isAttacked b ⟨pos.row, 2⟩ opp) ∧
                            ¬(isAttacked b ⟨pos.row, 3⟩ opp)
            if pathOk ∧ pathSafe then
              [{ from_ := pos, to_ := ⟨pos.row, 2⟩, promotion := PieceType.None,
                 isCapture := false, isCastling := true }]
            else []
          else []
        else []
      kingside ++ queenside
    else []
  normalMoves ++ castleMoves

/-- `ChessLogic::getPseudoLegalMoves`: dispatch on the piece type. -/
def getPseudoLegalMoves (b : Board) (pos : Position) : List Move :=
  match (getPiece b pos).type with
  | PieceType.Pawn => getPawnMoves b pos
  | PieceType.Knight => getKnightMoves b pos
  | PieceType.Bishop => getBishopMoves b pos
  | PieceType.Rook => getRookMoves b pos
  | PieceType.Queen => getQueenMoves b pos
  | PieceType.King => getKingMoves b pos
  | PieceType.None => []

/-- The board produced by `wouldBeInCheck`'s simulate step: en-passant
    removal (when flagged) followed by `movePiece`. -/
def simBoardOf (b : Board) (m : Move) : Board :=
  let b1 := if m.isEnPassant then removePiece b ⟨m.from_.row, m.to_.col⟩ else b
  movePiece b1 m.from_ m.to_

/-- `ChessLogic::wouldBeInCheck`, modelled as a state transformer
    (value, board left behind).  The C++ function simulates the move on the
    live board and undoes it; its final line
    `board.getPiece(move.from).setMoved(movingPiece.hasMoved());`
    reads `movingPiece`, which is a REFERENCE into the square `move.from`
    itself, so after the undoing `movePiece` it reads back the freshly set
    `true` rather than the saved flag — the model mirrors that aliasing by
    reading the current square. -/
def wouldBeInCheck (b : Board) (m : Move) : Bool × Board :=
  let movingPiece := getPiece b m.from_
  let color := movingPiece.color
  let capturedPiece := getPiece b m.to_
  let enPassantPos : Position :=
    if m.isEnPassant then ⟨m.from_.row, m.to_.col⟩ else ⟨-1, -1⟩
  let enPassantCaptured :=
    if m.isEnPassant then getPiece b enPassantPos else Piece.empty
  let b2 := simBoardOf b m
  let kingPos := findKing b2 color
  let inCheck := isAttacked b2 kingPos (opponentOf color)
  let b3 := movePiece b2 m.to_ m.from_
  let b4 := setPiece b3 m.from_ ((getPiece b3 m.from_).setMoved (getPiece b3 m.from_).hasMoved)
  let b5 := setPiece b4 m.to_ capturedPiece
  let b6 := if m.isEnPassant then setPiece b5 enPassantPos enPassantCaptured else b5
  (inCheck, b6)

/-- The legality filter loop of `ChessLogic::getLegalMoves`, threading the
    board through the `wouldBeInCheck` side effects. -/
def legalFilter (b : Board) : List Move → List Move × Board
  | [] => ([], b)
  | m :: rest =>
      let r1 := wouldBeInCheck b m
      let r2 := legalFilter r1.2 rest
      (if r1.1 then r2.1 else m :: r2.1, r2.2)

/-- `ChessLogic::getLegalMoves` (state transformer form; `turn` is
    `m_currentTurn`). -/
def getLegalMoves (b : Board) (turn : Color) (pos : Position) : List Move × Board :=
  let piece := getPiece b pos
  if piece.isEmpty ∨ piece.color ≠ turn then ([], b)
  else legalFilter b (getPseudoLegalMoves b pos)

/-- `ChessLogic::isLegalMove`: membership of `(to, promotion)` in the legal
    moves from `move.from`. -/
def isLegalMove (b : Board) (turn : Color) (m : Move) : Bool × Board :=
  let r := getLegalMoves b turn m.from_
  (r.1.any fun lm => decide (lm.to_ = m.to_ ∧ lm.promotion = m.promotion), r.2)

/-- All board mutations of a successful `ChessLogic::makeMove`, in code
    order: en-passant capture removal, the king+rook (castling) or normal
    move with promotion replacement, the en-passant target update, and the
    castling-rights updates. -/
def makeMoveBoard (b : Board) (m : Move) : Board :=
  let movedPiece := getPiece b m.from_
  let pieceColor := movedPiece.color
  let b1 := if m.isEnPassant then removePiece b ⟨m.from_.row, m.to_.col⟩ else b
  let b2 :=
    if m.isCastling then
      let bk := movePiece b1 m.from_ m.to_
      let rookFromCol : Int := if m.to_.col > m.from_.col then 7 else 0
      let rookToCol : Int := if m.to_.col > m.from_.col then 5 else 3
      let br := movePiece bk ⟨m.from_.row, rookFromCol⟩ ⟨m.from_.row, rookToCol⟩
      disableCastling (disableCastling br pieceColor true) pieceColor false
    else
      let bm := movePiece b1 m.from_ m.to_
      if m.promotion ≠ PieceType.None then
        setPiece bm m.to_ ((Piece.mk2 m.promotion pieceColor).setMoved true)
      else bm
  let b3 := clearEnPassantTarget b2
  let b4 :=
    if movedPiece.type = PieceType.Pawn ∧ (m.to_.row - m.from_.row).natAbs = 2 then
      setEnPassantTarget b3 ⟨Int.tdiv (m.from_.row + m.to_.row) 2, m.from_.col⟩
    else b3
  let b5 :=
    if movedPiece.type = PieceType.King then
      disableCastling (disableCastling b4 pieceColor true) pieceColor false
    else b4
  let b6 :=
    if movedPiece.type = PieceType.Rook then
      if m.from_.col = 0 then disableCastling b5 pieceColor false
      else if m.from_.col = 7 then disableCastling b5 pieceColor true
      else b5
    else b5
  b6

/-- `ChessLogic::makeMove`: reject if not legal (the legality check's board
    side effects persist either way); otherwise record, mutate, flip turn. -/
def makeMove (st : LState) (m : Move) : Bool × LState :=
  let r := isLegalMove st.board st.currentTurn m
  let legal := r.1
  let b0 := r.2
  if ¬legal then (false, { st with board := b0 })
  else
    let record : MoveRecord :=
      { move := m
        movedPiece := getPiece b0 m.from_
        capturedPiece :=
          if m.isEnPassant then getPiece b0 ⟨m.from_.row, m.to_.col⟩
          else getPiece b0 m.to_
        enPassantCapturePos :=
          if m.isEnPassant then ⟨m.from_.row, m.to_.col⟩ else ⟨-1, -1⟩
        enPassantTarget := getEnPassantTarget b0
        castlingRights := getCastlingRights b0
        wasEnPassantCapture := m.isEnPassant }
    (true, { board := makeMoveBoard b0 m
             currentTurn := if st.currentTurn = Color.White then Color.Black else Color.White
             history := record :: st.history })

/-- `ChessLogic::undoMove`: pops the newest record and replays it
    backwards. -/
def undoMove (st : LState) : Bool × LState :=
  match st.history with
  | [] => (false, st)
  | record :: rest =>
      let m := record.move
      let b := st.board
      let b1 :=
        if m.isCastling then
          let bk := movePiece b m.to_ m.from_
          let rookFromCol : Int := if m.to_.col > m.from_.col then 7 else 0
          let rookToCol : Int := if m.to_.col > m.from_.col then 5 else 3
          movePiece bk ⟨m.from_.row, rookToCol⟩ ⟨m.from_.row, rookFromCol⟩
        else if record.wasEnPassantCapture then
          let ba := setPiece b m.from_ record.movedPiece
          let bb := setPiece ba m.to_ Piece.empty
          setPiece bb record.enPassantCapturePos record.capturedPiece
        else
          let ba := setPiece b m.from_ record.movedPiece
          setPiece ba m.to_ record.capturedPiece
      let b2 :=
        if record.enPassantTarget.isValid then setEnPassantTarget b1 record.enPassantTarget
        else clearEnPassantTarget b1
      let b3 := setCastlingRights b2 record.castlingRights
      (true, { board := b3
               currentTurn := if st.currentTurn = Color.White then Color.Black else Color.White
               history := rest })

/-- The piece-scanning loop shared verbatim between `ChessLogic::isCheckmate`
    and `ChessLogic::isStalemate`: true when no scanned piece has a legal
    move (the turn override is modelled by passing `color` directly; the
    board side effects of each `getLegalMoves` call thread into the next). -/
def noMovesScan (b : Board) (color : Color) : List Position → Bool × Board
  | [] => (true, b)
  | pos :: rest =>
      let r := getLegalMoves b color pos
      if r.1.isEmpty then noMovesScan r.2 color rest else (false, r.2)

/-- `ChessLogic::isCheckmate`. -/
def isCheckmate (b : Board) (color : Color) : Bool × Board :=
  if ¬(isInCheck b color) then (false, b)
  else noMovesScan b color (findPieces b color)

/-- `ChessLogic::isStalemate`. -/
def isStalemate (b : Board) (color : Color) : Bool × Board :=
  if isInCheck b color then (false, b)
  else noMovesScan b color (findPieces b color)

/-- The accumulation loop of `ChessLogic::getAllLegalMoves`. -/
def allScan (b : Board) (color : Color) : List Position → List Move × Board
  | [] => ([], b)
  | pos :: rest =>
      let r := getLegalMoves b color pos
      let r2 := allScan r.2 color rest
      (r.1 ++ r2.1, r2.2)

/-- `ChessLogic::getAllLegalMoves`. -/
def getAllLegalMoves (b : Board) (color : Color) : List Move × Board :=
  allScan b color (findPieces b color)

/-- `ChessLogic::getGameState`, evaluated for `turn = m_currentTurn`. -/
def getGameState (b : Board) (turn : Color) : GameState × Board :=
  let r1 := isCheckmate b turn
  if r1.1 then (GameState.Checkmate, r1.2)
  else
    let r2 := isStalemate r1.2 turn
    if r2.1 then (GameState.Stalemate, r2.2)
    else if isInCheck r2.2 turn then (GameState.Check, r2.2)
    else (GameState.Playing, r2.2)

end ChessLogic

namespace AIPlayer

open Board

/-- `AIPlayer::getPieceValue`. -/
def getPieceValue (t : PieceType) : Int :=
  match t with
  | PieceType.Pawn => 100
  | PieceType.Knight => 320
  | PieceType.Bishop => 330
  | PieceType.Rook => 500
  | PieceType.Queen => 900
  | PieceType.King => 20000
  | PieceType.None => 0

/-- `AIPlayer::PAWN_TABLE`. -/
def PAWN_TABLE : List (List Int) :=
  [[  0,  0,  0,  0,  0,  0,  0,  0],
   [ 50, 50, 50, 50, 50, 50, 50, 50],
   [ 10, 10, 20, 30, 30, 20, 10, 10],
   [  5,  5, 10, 25, 25, 10,  5,  5],
   [  0,  0,  0, 20, 20,  0,  0,  0],
   [  5, -5,-10,  0,  0,-10, -5,  5],
   [  5, 10, 10,-20,-20, 10, 10,  5],
   [  0,  0,  0,  0,  0,  0,  0,  0]]

/-- `AIPlayer::KNIGHT_TABLE`. -/
def KNIGHT_TABLE : List (List Int) :=
  [[-50,-40,-30,-30,-30,-30,-40,-50],
   [-40,-20,  0,  0,  0,  0,-20,-40],
   [-30,  0, 10, 15, 15, 10,  0,-30],
   [-30,  5, 15, 20, 20, 15,  5,-30],
   [-30,  0, 15, 20, 20, 15,  0,-30],
   [-30,  5, 10, 15, 15, 10,  5,-30],
   [-40,-20,  0,  5,  5,  0,-20,-40],
   [-50,-40,-30,-30,-30,-30,-40,-50]]

/-- `AIPlayer::BISHOP_TABLE`. -/
def BISHOP_TABLE : List (List Int) :=
  [[-20,-10,-10,-10,-10,-10,-10,-20],
   [-10,  0,  0,  0,  0,  0,  0,-10],
   [-10,  0,  5, 10, 10,  5,  0,-10],
   [-10,  5,  5, 10, 10,  5,  5,-10],
   [-10,  0, 10, 10, 10, 10,  0,-10],
   [-10, 10, 10, 10, 10, 10, 10,-10],
   [-10,  5,  0,  0,  0,  0,  5,-10],
   [-20,-10,-10,-10,-10,-10,-10,-20]]

/-- `AIPlayer::ROOK_TABLE`. -/
def ROOK_TABLE : List (List Int) :=
  [[  0,  0,  0,  0,  0,  0,  0,  0],
   [  5, 10, 10, 10, 10, 10, 10,  5],
   [ -5,  0,  0,  0,  0,  0,  0, -5],
   [ -5,  0,  0,  0,  0,  0,  0, -5],
   [ -5,  0,  0,  0,  0,  0,  0, -5],
   [ -5,  0,  0,  0,  0,  0,  0, -5],
   [ -5,  0,  0,  0,  0,  0,  0, -5],
   [  0,  0,  0,  5,  5,  0,  0,  0]]

/-- `AIPlayer::QUEEN_TABLE`. -/
def QUEEN_TABLE : List (List Int) :=
  [[-20,-10,-10, -5, -5,-10,-10,-20],
   [-10,  0,  0,  0,  0,  0,  0,-10],
   [-10,  0,  5,  5,  5,  5,  0,-10],
   [ -5,  0,  5,  5,  5,  5,  0, -5],
   [  0,  0,  5,  5,  5,  5,  0, -5],
   [-10,  5,  5,  5,  5,  5,  0,-10],
   [-10,  0,  5,  0,  0,  0,  0,-10],
   [-20,-10,-10, -5, -5,-10,-10,-20]]

/-- `AIPlayer::KING_TABLE`. -/
def KING_TABLE : List (List Int) :=
  [[-30,-40,-40,-50,-50,-40,-40,-30],
   [-30,-40,-40,-50,-50,-40,-40,-30],
   [-30,-40,-40,-50,-50,-40,-40,-30],
   [-30,-40,-40,-50,-50,-40,-40,-30],
   [-20,-30,-30,-40,-40,-30,-30,-20],
   [-10,-20,-20,-20,-20,-20,-20,-10],
   [ 20, 20,  0,  0,  0,  0, 20, 20],
   [ 20, 30, 10,  0,  0, 10, 30, 20]]

/-- Two-dimensional table indexing `TABLE[row][col]` (in the modelled call
    sites both indices are in range). -/
def tableAt (t : List (List Int)) (row col : Int) : Int :=
  (t.getD row.toNat []).getD col.toNat 0

/-- `AIPlayer::getPositionBonus`: the row index is flipped for Black. -/
def getPositionBonus (pos : Position) (t : PieceType) (color : Color) : Int :=
  let row : Int := if color = Color.White then pos.row else 7 - pos.row
  let col : Int := pos.col
  match t with
  | PieceType.Pawn => tableAt PAWN_TABLE row col
  | PieceType.Knight => tableAt KNIGHT_TABLE row col
  | PieceType.Bishop => tableAt BISHOP_TABLE row col
  | PieceType.Rook => tableAt ROOK_TABLE row col
  | PieceType.Queen => tableAt QUEEN_TABLE row col
  | PieceType.King => tableAt KING_TABLE row col
  | PieceType.None => 0

/-- `AIPlayer::evaluateBoard`: material plus positional bonus, signed by
    whether the piece's color matches `aiColor`. -/
def evaluateBoard (b : Board) (aiColor : Color) : Int :=
  scanSquares.foldl (fun score sq =>
    let piece := getPiece b sq
    if piece.isEmpty then score
    else
      let value := getPieceValue piece.type
      let bonus := getPositionBonus sq piece.type piece.color
      if piece.color = aiColor then score + (value + bonus)
      else score - (value + bonus)) 0

/-- Path clearance inside `AIPlayer::isAttacked` (the search engine's own
    copy of the attack scan). -/
def pathClearA (b : Board) (att : Position) (rowStep colStep : Int) (steps : Nat) : Bool :=
  (List.range' 1 (steps - 1)).all fun i =>
    (getPiece b ⟨att.row + (i : Int) * rowStep, att.col + (i : Int) * colStep⟩).isEmpty

/-- `AIPlayer::isAttacked`: scans every square row-major, skipping pieces
    that are empty or not of `byColor`, then applies the same per-type
    attack tests as the legality engine's copy. -/
def isAttacked (b : Board) (pos : Position) (byColor : Color) : Bool :=
  scanSquares.any fun att =>
    let piece := getPiece b att
    if piece.isEmpty ∨ piece.color ≠ byColor then false
    else
      let rowDiff := pos.row - att.row
      let colDiff := pos.col - att.col
      let absRow := rowDiff.natAbs
      let absCol := colDiff.natAbs
      match piece.type with
      | PieceType.Pawn =>
          let dir : Int := if byColor = Color.White then -1 else 1
          decide (rowDiff = dir ∧ absCol = 1)
      | PieceType.Knight =>
          decide ((absRow = 2 ∧ absCol = 1) ∨ (absRow = 1 ∧ absCol = 2))
      | PieceType.Bishop =>
          if absRow = absCol ∧ absRow > 0 then
            let rs : Int := if rowDiff > 0 then 1 else -1
            let cs : Int := if colDiff > 0 then 1 else -1
            pathClearA b att rs cs absRow
          else false
      | PieceType.Rook =>
          if (rowDiff = 0 ∨ colDiff = 0) ∧ absRow + absCol > 0 then
            let rs : Int := if rowDiff = 0 then 0 else if rowDiff > 0 then 1 else -1
            let cs : Int := if colDiff = 0 then 0 else if colDiff > 0 then 1 else -1
            pathClearA b att rs cs (max absRow absCol)
          else false
      | PieceType.Queen =>
          let diag := absRow = absCol ∧ absRow > 0
          let straight := (rowDiff = 0 ∨ colDiff = 0) ∧ absRow + absCol > 0
          if diag ∨ straight then
            let rs : Int := if rowDiff = 0 then 0 else if rowDiff > 0 then 1 else -1
            let cs : Int := if colDiff = 0 then 0 else if colDiff > 0 then 1 else -1
            pathClearA b att rs cs (max absRow absCol)
          else false
      | PieceType.King =>
          decide (absRow ≤ 1 ∧ absCol ≤ 1 ∧ absRow + absCol > 0)
      | PieceType.None => false

/-- `AIPlayer::isInCheck`: an ABSENT king counts as in check (comment in
    the source: "Roi absent = considere en echec"). -/
def isInCheck (b : Board) (color : Color) : Bool :=
  let kingPos := findKing b color
  if ¬kingPos.isValid then true
  else isAttacked b kingPos (opponentOf color)

/-- `AIPlayer::simulateMove`: applies the move to the given board copy and
    reports whether the mover's king is NOT left in check. -/
def simulateMove (b : Board) (m : Move) (currentTurn : Color) : Bool × Board :=
  let b1 := if m.isEnPassant then removePiece b ⟨m.from_.row, m.to_.col⟩ else b
  let b2 :=
    if m.isCastling then
      let bk := movePiece b1 m.from_ m.to_
      let rookFromCol : Int := if m.to_.col > m.from_.col then 7 else 0
      let rookToCol : Int := if m.to_.col > m.from_.col then 5 else 3
      movePiece bk ⟨m.from_.row, rookFromCol⟩ ⟨m.from_.row, rookToCol⟩
    else movePiece b1 m.from_ m.to_
  let b3 :=
    if m.promotion ≠ PieceType.None then
      setPiece b2 m.to_ ((Piece.mk2 m.promotion currentTurn).setMoved true)
    else b2
  let b4 := clearEnPassantTarget b3
  let movedPiece := getPiece b4 m.to_
  let b5 :=
    if movedPiece.type = PieceType.Pawn ∧ (m.to_.row - m.from_.row).natAbs = 2 then
      setEnPassantTarget b4 ⟨Int.tdiv (m.from_.row + m.to_.row) 2, m.from_.col⟩
    else b4
  (¬(isInCheck b5 currentTurn), b5)

/-- One sliding direction of the search engine's generator (same fuel-8
    embedding of the C++ while loop as the legality engine's). -/
def slideDirA (b : Board) (color : Color) (pos : Position) :
    Nat → Position → Int → Int → List Move
  | 0, _, _, _ => []
  | fuel + 1, cur, dr, dc =>
      let target : Position := ⟨cur.row + dr, cur.col + dc⟩
      if ¬target.isValid then []
      else
        let t := getPiece b target
        if t.isEmpty then
          { from_ := pos, to_ := target } :: slideDirA b color pos fuel target dr dc
        else if t.color ≠ color then
          [{ from_ := pos, to_ := target, promotion := PieceType.None, isCapture := true }]
        else []

/-- The pseudo-legal moves one square contributes inside
    `AIPlayer::generateMoves` (promotions always to Queen). -/
def pseudoMovesAt (b : Board) (color : Color) (from_ : Position) : List Move :=
  let piece := getPiece b from_
  let row := from_.row
  let col := from_.col
  match piece.type with
  | PieceType.Pawn =>
      let dir : Int := if color = Color.White then -1 else 1
      let startRow : Int := if color = Color.White then 6 else 1
      let promoRow : Int := if color = Color.White then 0 else 7
      let fwd : Position := ⟨row + dir, col⟩
      let fwdMoves :=
        if fwd.isValid ∧ (getPiece b fwd).isEmpty = true then
          (if fwd.row = promoRow then
            [{ from_ := from_, to_ := fwd, promotion := PieceType.Queen,
               isCapture := false, isCastling := false, isEnPassant := false }]
          else [{ from_ := from_, to_ := fwd }]) ++
          (if row = startRow then
            let fwd2 : Position := ⟨row + 2 * dir, col⟩
            if (getPiece b fwd2).isEmpty then [{ from_ := from_, to_ := fwd2 }] else []
          else [])
        else []
      let capMoves := [(-1 : Int), 1].flatMap fun dc =>
        let cap : Position := ⟨row + dir, col + dc⟩
        if ¬cap.isValid then []
        else
          let target := getPiece b cap
          let isCapture := ¬target.isEmpty ∧ target.color ≠ color
          let isEP := cap = b.enPassantTarget
          if isCapture ∨ isEP then
            if cap.row = promoRow then
              [{ from_ := from_, to_ := cap, promotion := PieceType.Queen,
                 isCapture := true, isCastling := false, isEnPassant := false }]
            else
              [{ from_ := from_, to_ := cap, promotion := PieceType.None,
                 isCapture := decide isCapture, isCastling := false,
                 isEnPassant := decide isEP }]
          else []
      fwdMoves ++ capMoves
  | PieceType.Knight =>
      [((-2 : Int), (-1 : Int)), (-2, 1), (-1, -2), (-1, 2),
       (1, -2), (1, 2), (2, -1), (2, 1)].flatMap fun o =>
        let tpos : Position := ⟨row + o.1, col + o.2⟩
        if ¬tpos.isValid then []
        else
          let t := getPiece b tpos
          if t.isEmpty ∨ t.color ≠ color then
            [{ from_ := from_, to_ := tpos, promotion := PieceType.None,
               isCapture := !t.isEmpty }]
          else []
  | PieceType.Bishop =>
      [((-1 : Int), (-1 : Int)), (-1, 1), (1, -1), (1, 1)].flatMap fun d =>
        slideDirA b color from_ 8 from_ d.1 d.2
  | PieceType.Rook =>
      [((-1 : Int), (0 : Int)), (1, 0), (0, -1), (0, 1)].flatMap fun d =>
        slideDirA b color from_ 8 from_ d.1 d.2
  | PieceType.Queen =>
      [((-1 : Int), (-1 : Int)), (-1, 0), (-1, 1), (0, -1),
       (0, 1), (1, -1), (1, 0), (1, 1)].flatMap fun d =>
        slideDirA b color from_ 8 from_ d.1 d.2
  | PieceType.King =>
      let normal := [(-1 : Int), 0, 1].flatMap fun dr =>
        [(-1 : Int), 0, 1].flatMap fun dc =>
          if dr = 0 ∧ dc = 0 then []
          else
            let tpos : Position := ⟨row + dr, col + dc⟩
            if ¬tpos.isValid then []
            else
              let t := getPiece b tpos
              if t.isEmpty ∨ t.color ≠ color then
                [{ from_ := from_, to_ := tpos, promotion := PieceType.None,
                   isCapture := !t.isEmpty }]
              else []
      let castles :=
        if ¬piece.hasMoved ∧ ¬(isInCheck b color) then
          let opp := opponentOf color
          let ks :=
            if canCastleKingside b color then
              let rook := getPiece b ⟨row, 7⟩
              if rook.type = PieceType.Rook ∧ ¬rook.hasMoved ∧
                  (getPiece b ⟨row, 5⟩).isEmpty = true ∧
                  (getPiece b ⟨row, 6⟩).isEmpty = true ∧
                  ¬(isAttacked b ⟨row, 5⟩ opp) ∧ ¬(isAttacked b ⟨row, 6⟩ opp) then
                [{ from_ := from_, to_ := ⟨row, 6⟩, promotion := PieceType.None,
                   isCapture := false, isCastling := true, isEnPassant := false }]
              else []
            else []
          let qs :=
            if canCastleQueenside b color then
              let rook := getPiece b ⟨row, 0⟩
              if rook.type = PieceType.Rook ∧ ¬rook.hasMoved ∧
                  (getPiece b ⟨row, 1⟩).isEmpty = true ∧
                  (getPiece b ⟨row, 2⟩).isEmpty = true ∧
                  (getPiece b ⟨row, 3⟩).isEmpty = true ∧
                  ¬(isAttacked b ⟨row, 2⟩ opp) ∧ ¬(isAttacked b ⟨row, 3⟩ opp) then
                [{ from_ := from_, to_ := ⟨row, 2⟩, promotion := PieceType.None,
                   isCapture := false, isCastling := true, isEnPassant := false }]
              else []
            else []
          ks ++ qs
        else []
      normal ++ castles
  | PieceType.None => []

/-- `AIPlayer::generateMoves`: pseudo-legal generation per square followed
    by the copy-simulate-filter (only moves passing `simulateMove`'s
    own-king-safety check survive). -/
def generateMoves (b : Board) (color : Color) : List Move :=
  scanSquares.flatMap fun from_ =>
    let piece := getPiece b from_
    if piece.isEmpty ∨ piece.color ≠ color then []
    else (pseudoMovesAt b color from_).filter fun m => (simulateMove b m color).1

/-- The maximizing loop of `AIPlayer::minimax` (fail-soft: `maxEval` is
    tracked separately from `alpha`; `beta <= alpha` breaks). -/
def abMaxGo (child : Move → Int → Int → Int) (beta : Int) :
    List Move → Int → Int → Int
  | [], _, best => best
  | m :: rest, alpha, best =>
      let e := child m alpha beta
      let best1 := max best e
      let alpha1 := max alpha e
      if beta ≤ alpha1 then best1 else abMaxGo child beta rest alpha1 best1

/-- The minimizing loop of `AIPlayer::minimax`. -/
def abMinGo (child : Move → Int → Int → Int) (alpha : Int) :
    List Move → Int → Int → Int
  | [], _, best => best
  | m :: rest, beta, best =>
      let e := child m alpha beta
      let best1 := min best e
      let beta1 := min beta e
      if beta1 ≤ alpha then best1 else abMinGo child alpha rest beta1 best1

/-- `AIPlayer::minimax` with alpha-beta pruning.  `maxD` stands for the
    `getMaxDepth()` member call in the mate scores.  `reorder` stands for
    the `std::sort` by the captures/promotions-first comparator: the C++
    standard only promises SOME reordering of the move list consistent with
    that comparator, so the model takes the reordering as a parameter; the
    equivalence theorem assumes nothing about it beyond being a
    permutation. -/
def minimax (reorder : Board → List Move → List Move) (maxD : Int) (ai : Color) :
    Nat → Board → Color → Int → Int → Bool → Int
  | depth, b, turn, alpha, beta, maximizing =>
    let moves := generateMoves b turn
    if moves.isEmpty then
      if isInCheck b turn then
        if maximizing then -100000 + (maxD - (depth : Int))
        else 100000 - (maxD - (depth : Int))
      else 0
    else
      match depth with
      | 0 => evaluateBoard b ai
      | d + 1 =>
        let sorted := reorder b moves
        if maximizing then
          abMaxGo (fun m a2 b2 =>
              minimax reorder maxD ai d (simulateMove b m turn).2 (opponentOf turn) a2 b2 false)
            beta sorted alpha (-2147483648)
        else
          abMinGo (fun m a2 b2 =>
              minimax reorder maxD ai d (simulateMove b m turn).2 (opponentOf turn) a2 b2 true)
            alpha sorted beta 2147483647
  termination_by depth _ _ _ _ _ => depth

/-- The maximizing fold of the unpruned minimax. -/
def plainMaxGo (child : Move → Int) : List Move → Int → Int
  | [], best => best
  | m :: rest, best => plainMaxGo child rest (max best (child m))

/-- The minimizing fold of the unpruned minimax. -/
def plainMinGo (child : Move → Int) : List Move → Int → Int
  | [], best => best
  | m :: rest, best => plainMinGo child rest (min best (child m))

/-- The spec's comparison point for the pruning claim: the unpruned minimax
    of the same depth on the same position ("Alpha-beta `minimax` returns
    the same value as an unpruned minimax at equal depth"): identical to
    `minimax` but with no window, no cutoff and no move reordering. -/
def minimaxPlain (maxD : Int) (ai : Color) : Nat → Board → Color → Bool → Int
  | depth, b, turn, maximizing =>
    let moves := generateMoves b turn
    if moves.isEmpty then
      if isInCheck b turn then
        if maximizing then -100000 + (maxD - (depth : Int))
        else 100000 - (maxD - (depth : Int))
      else 0
    else
      match depth with
      | 0 => evaluateBoard b ai
      | d + 1 =>
        if maximizing then
          plainMaxGo (fun m =>
              minimaxPlain maxD ai d (simulateMove b m turn).2 (opponentOf turn) false)
            moves (-2147483648)
        else
          plainMinGo (fun m =>
              minimaxPlain maxD ai d (simulateMove b m turn).2 (opponentOf turn) true)
            moves 2147483647
  termination_by depth _ _ _ => depth

/-- `AIPlayer::getMaxDepth`. -/
def getMaxDepth (d : AIDifficulty) : Int :=
  match d with
  | AIDifficulty.Easy => 1
  | AIDifficulty.Medium => 2
  | AIDifficulty.Hard => 3
  | AIDifficulty.Expert => 4

/-- The root loop of `AIPlayer::findBestMove`: forces promotions to Queen,
    simulates on a copy, scores (direct evaluation at depth <= 1, minimax
    below), and collects the argmax set while raising alpha. -/
def fbmGo (reorder : Board → List Move → List Move) (maxD : Int) (color opp : Color)
    (b0 : Board) : List Move → Int → Int → List Move → Int × List Move
  | [], _, bestScore, bestMoves => (bestScore, bestMoves)
  | mv :: rest, alpha, bestScore, bestMoves =>
      let mv1 := if mv.promotion ≠ PieceType.None then
                   { mv with promotion := PieceType.Queen } else mv
      let sim := simulateMove b0 mv1 color
      if ¬sim.1 then fbmGo reorder maxD color opp b0 rest alpha bestScore bestMoves
      else
        let score :=
          if maxD ≤ 1 then evaluateBoard sim.2 color
          else minimax reorder maxD color (maxD - 1).toNat sim.2 opp alpha 2147483647 false
        let next :=
          if score > bestScore then (score, [mv1])
          else if score = bestScore then (bestScore, bestMoves ++ [mv1])
          else (bestScore, bestMoves)
        fbmGo reorder maxD color opp b0 rest (max alpha score) next.1 next.2

/-- `AIPlayer::findBestMove`.  The root legal moves come from the legality
    engine on the LIVE board (whose side effects persist); everything else
    runs on copies.  `pick` stands for the single draw the function makes
    from its `std::mt19937` through a uniform distribution over the tied
    best moves. -/
def findBestMove (st : ChessLogic.LState) (color : Color) (difficulty : AIDifficulty)
    (reorder : Board → List Move → List Move) (pick : Nat) : Move :=
  let r := ChessLogic.getAllLegalMoves st.board color
  let moves := r.1
  if moves.isEmpty then Move.defaultMove
  else
    let maxD := getMaxDepth difficulty
    let opp := opponentOf color
    let result := fbmGo reorder maxD color opp r.2 moves (-2147483648) (-2147483648) []
    let bestMoves := result.2
    if bestMoves.isEmpty then moves.headD Move.defaultMove
    else bestMoves.getD (pick % bestMoves.length) Move.defaultMove

end AIPlayer

/-! ### Basic lemmas about the board primitives -/

theorem Piece.isEmpty_iff (p : Piece) : p.isEmpty = true ↔ p.type = PieceType.None := by
  simp [Piece.isEmpty]

theorem Position.isValid_iff (p : Position) :
    p.isValid = true ↔ 0 ≤ p.row ∧ p.row < 8 ∧ 0 ≤ p.col ∧ p.col < 8 := by
  simp [Position.isValid]

namespace Board

theorem enPassantTarget_setPiece (b : Board) (q : Position) (x : Piece) :
    (setPiece b q x).enPassantTarget = b.enPassantTarget := rfl

theorem castlingRights_setPiece (b : Board) (q : Position) (x : Piece) :
    (setPiece b q x).castlingRights = b.castlingRights := rfl

theorem enPassantTarget_movePiece (b : Board) (f t : Position) :
    (movePiece b f t).enPassantTarget = b.enPassantTarget := rfl

theorem castlingRights_movePiece (b : Board) (f t : Position) :
    (movePiece b f t).castlingRights = b.castlingRights := rfl

theorem enPassantTarget_removePiece (b : Board) (q : Position) :
    (removePiece b q).enPassantTarget = b.enPassantTarget := rfl

theorem castlingRights_removePiece (b : Board) (q : Position) :
    (removePiece b q).castlingRights = b.castlingRights := rfl

theorem getPiece_invalid (b : Board) (p : Position) (h : ¬ p.isValid = true) :
    getPiece b p = Piece.empty := by
  simp [getPiece, h]

theorem getPiece_setPiece (b : Board) (q : Position) (x : Piece) (p : Position) :
    getPiece (setPiece b q x) p =
      if p = q ∧ p.isValid = true then x else getPiece b p := by
  unfold getPiece setPiece
  by_cases hv : p.isValid = true <;> by_cases he : p = q <;> simp_all

theorem getPiece_removePiece (b : Board) (q : Position) (p : Position) :
    getPiece (removePiece b q) p =
      if p = q ∧ p.isValid = true then Piece.empty else getPiece b p := by
  unfold removePiece; exact getPiece_setPiece b q Piece.empty p

theorem getPiece_movePiece (b : Board) (f t : Position) (p : Position) :
    getPiece (movePiece b f t) p =
      if p = f ∧ p.isValid = true then Piece.empty
      else if p = t ∧ p.isValid = true then (getPiece b f).setMoved true
      else getPiece b p := by
  unfold movePiece
  rw [getPiece_setPiece, getPiece_setPiece]

theorem Position.isValid_mk (a b : Int) :
    (Position.mk a b).isValid = true ↔ 0 ≤ a ∧ a < 8 ∧ 0 ≤ b ∧ b < 8 := by
  simp [Position.isValid]

theorem mem_scanSquares (p : Position) : p ∈ scanSquares ↔ p.isValid = true := by
  unfold scanSquares
  simp only [List.mem_flatMap, List.mem_map, List.mem_range]
  constructor
  · rintro ⟨r, hr, c, hc, rfl⟩
    rw [Position.isValid_mk]
    omega
  · intro h
    rw [Position.isValid_iff] at h
    obtain ⟨r, c⟩ := p
    dsimp only at h
    refine ⟨r.toNat, by omega, c.toNat, by omega, ?_⟩
    rw [Position.mk.injEq]
    constructor <;> omega

theorem mem_findPieces (b : Board) (c : Color) (q : Position) :
    q ∈ findPieces b c ↔ q.isValid = true ∧ (getPiece b q).color = c := by
  unfold findPieces
  rw [List.mem_filter, mem_scanSquares]
  simp only [decide_eq_true_eq]

theorem findKing_cases (b : Board) (c : Color) :
    (findKing b c = ⟨-1, -1⟩ ∧
      ∀ p, p.isValid = true →
        ¬((getPiece b p).type = PieceType.King ∧ (getPiece b p).color = c)) ∨
    ((findKing b c).isValid = true ∧
      (getPiece b (findKing b c)).type = PieceType.King ∧
      (getPiece b (findKing b c)).color = c) := by
  unfold findKing
  rcases hf : scanSquares.find? (fun p =>
      decide ((getPiece b p).type = PieceType.King ∧ (getPiece b p).color = c)) with _ | q
  · left
    refine ⟨rfl, fun p hp hk => ?_⟩
    have := List.find?_eq_none.mp hf p ((mem_scanSquares p).mpr hp)
    simp_all
  · right
    have h1 := List.find?_some hf
    have h2 := List.mem_of_find?_eq_some hf
    rw [mem_scanSquares] at h2
    simp only [decide_eq_true_eq] at h1
    exact ⟨h2, h1.1, h1.2⟩

theorem findKing_eq_of_unique (b : Board) (c : Color) (q : Position)
    (hq : q.isValid = true)
    (hk : (getPiece b q).type = PieceType.King ∧ (getPiece b q).color = c)
    (huniq : ∀ p, p.isValid = true →
      (getPiece b p).type = PieceType.King → (getPiece b p).color = c → p = q) :
    findKing b c = q := by
  rcases findKing_cases b c with ⟨_, hnone⟩ | ⟨hv, ht, hc⟩
  · exact absurd hk (hnone q hq)
  · exact huniq _ hv ht hc

theorem findKing_eq_invalid (b : Board) (c : Color)
    (hnone : ∀ p, p.isValid = true →
      ¬((getPiece b p).type = PieceType.King ∧ (getPiece b p).color = c)) :
    findKing b c = ⟨-1, -1⟩ := by
  rcases findKing_cases b c with ⟨h, _⟩ | ⟨hv, ht, hc⟩
  · exact h
  · exact absurd ⟨ht, hc⟩ (hnone _ hv)

end Board

/-! ### Shape equivalence: two boards that agree on every square's piece
type and color (hasMoved may differ).  The attack scan, the king scan and
the piece scan cannot tell such boards apart. -/

def pieceShapeEq (b1 b2 : Board) : Prop :=
  ∀ p, (Board.getPiece b1 p).type = (Board.getPiece b2 p).type ∧
       (Board.getPiece b1 p).color = (Board.getPiece b2 p).color

theorem pieceShapeEq_refl (b : Board) : pieceShapeEq b b := fun _ => ⟨rfl, rfl⟩

theorem pieceShapeEq_symm {b1 b2 : Board} (h : pieceShapeEq b1 b2) : pieceShapeEq b2 b1 :=
  fun p => ⟨(h p).1.symm, (h p).2.symm⟩

theorem pieceShapeEq_trans {b1 b2 b3 : Board} (h1 : pieceShapeEq b1 b2)
    (h2 : pieceShapeEq b2 b3) : pieceShapeEq b1 b3 :=
  fun p => ⟨(h1 p).1.trans (h2 p).1, (h1 p).2.trans (h2 p).2⟩

theorem isEmpty_congr {b1 b2 : Board} (h : pieceShapeEq b1 b2) (p : Position) :
    (Board.getPiece b1 p).isEmpty = (Board.getPiece b2 p).isEmpty := by
  simp [Piece.isEmpty, (h p).1]

theorem findPieces_congr {b1 b2 : Board} (h : pieceShapeEq b1 b2) (c : Color) :
    Board.findPieces b1 c = Board.findPieces b2 c := by
  unfold Board.findPieces
  rw [show (fun p => decide ((Board.getPiece b1 p).color = c)) =
        (fun p => decide ((Board.getPiece b2 p).color = c)) from
      funext fun p => by rw [(h p).2]]

theorem findKing_congr {b1 b2 : Board} (h : pieceShapeEq b1 b2) (c : Color) :
    Board.findKing b1 c = Board.findKing b2 c := by
  unfold Board.findKing
  rw [show (fun p => decide ((Board.getPiece b1 p).type = PieceType.King ∧
        (Board.getPiece b1 p).color = c)) =
      (fun p => decide ((Board.getPiece b2 p).type = PieceType.King ∧
        (Board.getPiece b2 p).color = c)) from
      funext fun p => by rw [(h p).1, (h p).2]]

theorem setPiece_congr {b1 b2 : Board} (h : pieceShapeEq b1 b2) (q : Position) (x : Piece) :
    pieceShapeEq (Board.setPiece b1 q x) (Board.setPiece b2 q x) := by
  intro p
  rw [Board.getPiece_setPiece, Board.getPiece_setPiece]
  split
  · exact ⟨rfl, rfl⟩
  · exact h p

theorem removePiece_congr {b1 b2 : Board} (h : pieceShapeEq b1 b2) (q : Position) :
    pieceShapeEq (Board.removePiece b1 q) (Board.removePiece b2 q) :=
  setPiece_congr h q Piece.empty

theorem movePiece_congr {b1 b2 : Board} (h : pieceShapeEq b1 b2) (f t : Position) :
    pieceShapeEq (Board.movePiece b1 f t) (Board.movePiece b2 f t) := by
  intro p
  rw [Board.getPiece_movePiece, Board.getPiece_movePiece]
  split
  · exact ⟨rfl, rfl⟩
  · split
    · exact ⟨(h f).1, (h f).2⟩
    · exact h p

namespace ChessLogic

theorem pathClear_congr {b1 b2 : Board} (h : pieceShapeEq b1 b2)
    (att : Position) (rs cs : Int) (steps : Nat) :
    pathClear b1 att rs cs steps = pathClear b2 att rs cs steps := by
  unfold pathClear
  rw [show (fun i : Nat =>
        (Board.getPiece b1 ⟨att.row + (i : Int) * rs, att.col + (i : Int) * cs⟩).isEmpty) =
      (fun i : Nat =>
        (Board.getPiece b2 ⟨att.row + (i : Int) * rs, att.col + (i : Int) * cs⟩).isEmpty) from
      funext fun i => isEmpty_congr h _]

theorem attackFrom_congr {b1 b2 : Board} (h : pieceShapeEq b1 b2)
    (byColor : Color) (att pos : Position) :
    attackFrom b1 byColor att pos = attackFrom b2 byColor att pos := by
  have ht := (h att).1
  simp only [attackFrom, ht, pathClear_congr h]

theorem isAttacked_congr {b1 b2 : Board} (h : pieceShapeEq b1 b2)
    (pos : Position) (byColor : Color) :
    isAttacked b1 pos byColor = isAttacked b2 pos byColor := by
  unfold isAttacked
  rw [findPieces_congr h,
    show (fun att => attackFrom b1 byColor att pos) =
      (fun att => attackFrom b2 byColor att pos) from
      funext fun att => attackFrom_congr h byColor att pos]

theorem isInCheck_congr {b1 b2 : Board} (h : pieceShapeEq b1 b2) (c : Color) :
    isInCheck b1 c = isInCheck b2 c := by
  simp only [isInCheck, findKing_congr h, isAttacked_congr h]

end ChessLogic

theorem Piece.setMoved_self (p : Piece) : p.setMoved p.hasMoved = p := rfl

namespace Board

theorem getPiece_setPiece_self (b : Board) (q p : Position) :
    getPiece (setPiece b q ((getPiece b q).setMoved (getPiece b q).hasMoved)) p =
    getPiece b p := by
  rw [getPiece_setPiece]
  split
  · next h => rw [Piece.setMoved_self, h.1]
  · rfl

end Board

namespace ChessLogic

open Board

/-- The persistent board effect of `wouldBeInCheck`: for any move whose
    destination is a real square (true of every generated pseudo-legal
    move), the simulate/undo round trip restores every square's piece type
    and color, the en-passant target and the castling rights.  (What it
    does NOT restore is the `hasMoved` flag of the departure square - see
    the C1/C9 theorems.) -/
theorem wouldBeInCheck_shape (b : Board) (m : Move)
    (hto : m.to_.isValid = true)
    (hep : m.isEnPassant = true → m.from_.row ≠ m.to_.row ∧ m.from_.col ≠ m.to_.col) :
    pieceShapeEq (wouldBeInCheck b m).2 b ∧
    (wouldBeInCheck b m).2.enPassantTarget = b.enPassantTarget ∧
    (wouldBeInCheck b m).2.castlingRights = b.castlingRights := by
  unfold wouldBeInCheck simBoardOf
  by_cases hEP : m.isEnPassant = true
  · have hft : m.from_ ≠ m.to_ := by
      intro hcontra
      exact (hep hEP).1 (by rw [hcontra])
    have hepf : (⟨m.from_.row, m.to_.col⟩ : Position) ≠ m.from_ := by
      intro hcontra
      exact (hep hEP).2 (by
        have := congrArg Position.col hcontra
        dsimp only at this
        omega)
    simp only [hEP, if_true]
    refine ⟨?_, rfl, rfl⟩
    intro p
    by_cases hv : p.isValid = true
    · rw [getPiece_setPiece]
      split
      · next h1 => rw [h1.1]; exact ⟨rfl, rfl⟩
      · next h1 =>
        rw [getPiece_setPiece]
        split
        · next h2 => rw [h2.1]; exact ⟨rfl, rfl⟩
        · next h2 =>
          rw [getPiece_setPiece_self, getPiece_movePiece, if_neg h2]
          split
          · next h3 =>
            rw [getPiece_movePiece, if_neg (fun hc => hft hc.1.symm),
              if_pos ⟨rfl, hto⟩, getPiece_removePiece,
              if_neg (fun hc => hepf hc.1.symm), h3.1]
            exact ⟨rfl, rfl⟩
          · next h3 =>
            rw [getPiece_movePiece, if_neg h3, if_neg h2,
              getPiece_removePiece, if_neg h1]
            exact ⟨rfl, rfl⟩
    · rw [getPiece_invalid _ _ hv, getPiece_invalid _ _ hv]
      exact ⟨rfl, rfl⟩
  · rw [Bool.not_eq_true] at hEP
    simp only [hEP, Bool.false_eq_true, if_false]
    refine ⟨?_, rfl, rfl⟩
    intro p
    by_cases hv : p.isValid = true
    · rw [getPiece_setPiece]
      split
      · next h2 => rw [h2.1]; exact ⟨rfl, rfl⟩
      · next h2 =>
        rw [getPiece_setPiece_self, getPiece_movePiece, if_neg h2]
        split
        · next h3 =>
          have hft : m.from_ ≠ m.to_ := fun hc => h2 ⟨h3.1.trans hc, h3.2⟩
          rw [getPiece_movePiece, if_neg (fun hc => hft hc.1.symm),
            if_pos ⟨rfl, hto⟩, h3.1]
          exact ⟨rfl, rfl⟩
        · next h3 =>
          rw [getPiece_movePiece, if_neg h3, if_neg h2]
          exact ⟨rfl, rfl⟩
    · rw [getPiece_invalid _ _ hv, getPiece_invalid _ _ hv]
      exact ⟨rfl, rfl⟩

end ChessLogic

namespace ChessLogic

open Board

theorem pos_valid_of_nonempty {b : Board} {pos : Position}
    (h : (getPiece b pos).type ≠ PieceType.None) : pos.isValid = true := by
  by_contra hv
  rw [getPiece_invalid _ _ hv] at h
  exact h rfl

/-- The facts the castling branch of `getKingMoves` checked before emitting
    a castling move (kingside on the left of the disjunction, queenside on
    the right), stated about the board it generated from. -/
def castlePack (b : Board) (pos : Position) (m : Move) : Prop :=
  (getPiece b pos).type = PieceType.King ∧
  m.promotion = PieceType.None ∧ m.isEnPassant = false ∧
  ((m.to_ = ⟨pos.row, 6⟩ ∧
      (getPiece b ⟨pos.row, 7⟩).type = PieceType.Rook ∧
      (getPiece b ⟨pos.row, 5⟩).isEmpty = true ∧
      (getPiece b ⟨pos.row, 6⟩).isEmpty = true ∧
      isAttacked b ⟨pos.row, 5⟩ (opponentOf (getPiece b pos).color) = false ∧
      isAttacked b ⟨pos.row, 6⟩ (opponentOf (getPiece b pos).color) = false) ∨
   (m.to_ = ⟨pos.row, 2⟩ ∧
      (getPiece b ⟨pos.row, 0⟩).type = PieceType.Rook ∧
      (getPiece b ⟨pos.row, 1⟩).isEmpty = true ∧
      (getPiece b ⟨pos.row, 2⟩).isEmpty = true ∧
      (getPiece b ⟨pos.row, 3⟩).isEmpty = true ∧
      isAttacked b ⟨pos.row, 2⟩ (opponentOf (getPiece b pos).color) = false ∧
      isAttacked b ⟨pos.row, 3⟩ (opponentOf (getPiece b pos).color) = false))

theorem slideDir_mem {b : Board} {color : Color} {pos : Position} {m : Move} :
    ∀ (fuel : Nat) (cur : Position) (dr dc : Int),
    m ∈ slideDir b color pos fuel cur dr dc →
    m.from_ = pos ∧ m.to_.isValid = true ∧ m.promotion = PieceType.None ∧
    m.isCastling = false ∧ m.isEnPassant = false
  | 0, cur, dr, dc, hm => by simp [slideDir] at hm
  | fuel + 1, cur, dr, dc, hm => by
      rw [slideDir] at hm
      split at hm
      · simp at hm
      · next hval =>
        rw [Bool.not_eq_true, Bool.not_eq_false] at hval
        dsimp only at hm
        split at hm
        · rw [List.mem_cons] at hm
          rcases hm with rfl | hm
          · exact ⟨rfl, hval, rfl, rfl, rfl⟩
          · exact slideDir_mem fuel _ dr dc hm
        · split at hm
          · rw [List.mem_singleton] at hm
            subst hm
            exact ⟨rfl, hval, rfl, rfl, rfl⟩
          · simp at hm

theorem getSlidingMoves_mem {b : Board} {pos : Position} {dirs : List (Int × Int)} {m : Move}
    (hm : m ∈ getSlidingMoves b pos dirs) :
    m.from_ = pos ∧ m.to_.isValid = true ∧ m.promotion = PieceType.None ∧
    m.isCastling = false ∧ m.isEnPassant = false := by
  unfold getSlidingMoves at hm
  rw [List.mem_flatMap] at hm
  obtain ⟨d, _, hm⟩ := hm
  exact slideDir_mem 8 pos d.1 d.2 hm

theorem getPawnMoves_mem {b : Board} {pos : Position} {m : Move}
    (hm : m ∈ getPawnMoves b pos) :
    m.from_ = pos ∧ m.to_.isValid = true ∧
    (m.promotion = PieceType.None ∨ m.promotion = PieceType.Queen ∨
     m.promotion = PieceType.Rook ∨ m.promotion = PieceType.Bishop ∨
     m.promotion = PieceType.Knight) ∧
    m.isCastling = false ∧
    (m.isEnPassant = true → m.from_.row ≠ m.to_.row ∧ m.from_.col ≠ m.to_.col) ∧
    ((m.to_.row - m.from_.row).natAbs = 2 →
      pos.row = (if (getPiece b pos).color = Color.White then (6 : Int) else 1) ∧
      m.to_ = ⟨pos.row + 2 * (if (getPiece b pos).color = Color.White then (-1 : Int) else 1),
               pos.col⟩ ∧
      m.promotion = PieceType.None) := by
  unfold getPawnMoves at hm
  dsimp only at hm
  by_cases hc : (getPiece b pos).color = Color.White <;>
    [simp only [if_pos hc] at hm ⊢; simp only [if_neg hc] at hm ⊢] <;>
  · rw [List.mem_append] at hm
    rcases hm with hm | hm
    · split at hm
      next hfwd =>
        rw [List.mem_append] at hm
        rcases hm with hm | hm
        · split at hm
          next hpr =>
            rw [List.mem_map] at hm
            obtain ⟨promo, hpromo, rfl⟩ := hm
            refine ⟨rfl, hfwd.1, ?_, rfl, by intro h; simp at h, ?_⟩
            · simp only [List.mem_cons, List.not_mem_nil, or_false] at hpromo
              rcases hpromo with rfl | rfl | rfl | rfl <;> simp
            · intro h2
              dsimp only at h2
              omega
          next hpr =>
            rw [List.mem_singleton] at hm
            subst hm
            refine ⟨rfl, hfwd.1, Or.inl rfl, rfl, by intro h; simp at h, ?_⟩
            intro h2
            dsimp only at h2
            omega
        · split at hm
          next hstart =>
            try dsimp only at hm
            split at hm
            next hdbl =>
              rw [List.mem_singleton] at hm
              subst hm
              have hcb := hfwd.1
              rw [Position.isValid_mk] at hcb
              refine ⟨rfl, ?_, Or.inl rfl, rfl, by intro h; simp at h, ?_⟩
              · rw [Position.isValid_mk]
                omega
              · intro _
                exact ⟨hstart, rfl, rfl⟩
            next => simp at hm
          next => simp at hm
      next => simp at hm
    · rw [List.mem_flatMap] at hm
      obtain ⟨off, hoff, hm⟩ := hm
      have hoff2 : off = -1 ∨ off = 1 := by
        simp only [List.mem_cons, List.not_mem_nil, or_false] at hoff
        exact hoff
      try dsimp only at hm
      split at hm
      · simp at hm
      · next hcapval =>
        rw [Bool.not_eq_true, Bool.not_eq_false] at hcapval
        split at hm
        · split at hm
          next hpr =>
            rw [List.mem_map] at hm
            obtain ⟨promo, hpromo, rfl⟩ := hm
            refine ⟨rfl, hcapval, ?_, rfl, by intro h; simp at h, ?_⟩
            · simp only [List.mem_cons, List.not_mem_nil, or_false] at hpromo
              rcases hpromo with rfl | rfl | rfl | rfl <;> simp
            · intro h2
              dsimp only at h2
              omega
          next hpr =>
            rw [List.mem_singleton] at hm
            subst hm
            refine ⟨rfl, hcapval, Or.inl rfl, rfl, ?_, ?_⟩
            · intro _
              refine ⟨by dsimp only; omega, ?_⟩
              rcases hoff2 with rfl | rfl <;> (dsimp only; omega)
            · intro h2
              dsimp only at h2
              omega
        · simp at hm

theorem getKnightMoves_mem {b : Board} {pos : Position} {m : Move}
    (hm : m ∈ getKnightMoves b pos) :
    m.from_ = pos ∧ m.to_.isValid = true ∧ m.promotion = PieceType.None ∧
    m.isCastling = false ∧ m.isEnPassant = false := by
  unfold getKnightMoves at hm
  rw [List.mem_flatMap] at hm
  obtain ⟨o, _, hm⟩ := hm
  dsimp only at hm
  split at hm
  · simp at hm
  · next hval =>
    rw [Bool.not_eq_true, Bool.not_eq_false] at hval
    split at hm
    · rw [List.mem_singleton] at hm
      subst hm
      exact ⟨rfl, hval, rfl, rfl, rfl⟩
    · simp at hm

theorem getKingMoves_mem {b : Board} {pos : Position} {m : Move}
    (hk : (getPiece b pos).type = PieceType.King)
    (hm : m ∈ getKingMoves b pos) :
    m.from_ = pos ∧ m.to_.isValid = true ∧ m.promotion = PieceType.None ∧
    m.isEnPassant = false ∧
    (m.isCastling = true → castlePack b pos m) := by
  have hposv : pos.isValid = true := pos_valid_of_nonempty (by rw [hk]; intro h; cases h)
  rw [Position.isValid_iff] at hposv
  unfold getKingMoves at hm
  rw [List.mem_append] at hm
  rcases hm with hm | hm
  · rw [List.mem_flatMap] at hm
    obtain ⟨dr, _, hm⟩ := hm
    rw [List.mem_flatMap] at hm
    obtain ⟨dc, _, hm⟩ := hm
    split at hm
    · simp at hm
    · dsimp only at hm
      split at hm
      · simp at hm
      · next hval =>
        rw [Bool.not_eq_true, Bool.not_eq_false] at hval
        split at hm
        · rw [List.mem_singleton] at hm
          subst hm
          exact ⟨rfl, hval, rfl, rfl, by intro h; simp at h⟩
        · simp at hm
  · dsimp only at hm
    split at hm
    · rw [List.mem_append] at hm
      rcases hm with hm | hm
      · -- kingside
        split at hm
        · split at hm
          · next hrook =>
            split at hm
            · next hpath =>
              rw [List.mem_singleton] at hm
              subst hm
              refine ⟨rfl, ?_, rfl, rfl, ?_⟩
              · rw [Position.isValid_mk]
                omega
              · intro _
                refine ⟨hk, rfl, rfl, Or.inl ⟨rfl, hrook.1, hpath.1.1, hpath.1.2, ?_, ?_⟩⟩
                · rw [← Bool.not_eq_true]
                  exact hpath.2.1
                · rw [← Bool.not_eq_true]
                  exact hpath.2.2
            · simp at hm
          · simp at hm
        · simp at hm
      · -- queenside
        split at hm
        · split at hm
          · next hrook =>
            split at hm
            · next hpath =>
              rw [List.mem_singleton] at hm
              subst hm
              refine ⟨rfl, ?_, rfl, rfl, ?_⟩
              · rw [Position.isValid_mk]
                omega
              · intro _
                refine ⟨hk, rfl, rfl,
                  Or.inr ⟨rfl, hrook.1, hpath.1.1, hpath.1.2.1, hpath.1.2.2, ?_, ?_⟩⟩
                · rw [← Bool.not_eq_true]
                  exact hpath.2.1
                · rw [← Bool.not_eq_true]
                  exact hpath.2.2
            · simp at hm
          · simp at hm
        · simp at hm
    · simp at hm

/-- Structural facts about every generated pseudo-legal move. -/
theorem pseudo_basics {b : Board} {pos : Position} {m : Move}
    (hm : m ∈ getPseudoLegalMoves b pos) :
    m.from_ = pos ∧ m.to_.isValid = true ∧ m.promotion ≠ PieceType.King ∧
    (m.isEnPassant = true → m.from_.row ≠ m.to_.row ∧ m.from_.col ≠ m.to_.col) ∧
    (m.isCastling = true → castlePack b pos m) := by
  unfold getPseudoLegalMoves at hm
  split at hm
  · next h =>
    obtain ⟨h1, h2, h3, h4, h5, _⟩ := getPawnMoves_mem hm
    refine ⟨h1, h2, ?_, h5, ?_⟩
    · rcases h3 with h3 | h3 | h3 | h3 | h3 <;> rw [h3] <;> intro hcon <;> cases hcon
    · intro hcast
      rw [h4] at hcast
      cases hcast
  · next h =>
    obtain ⟨h1, h2, h3, h4, h5⟩ := getKnightMoves_mem hm
    refine ⟨h1, h2, (by rw [h3]; intro hcon; cases hcon),
      (by rw [h5]; intro hcon; cases hcon), (by rw [h4]; intro hcon; cases hcon)⟩
  · next h =>
    obtain ⟨h1, h2, h3, h4, h5⟩ := getSlidingMoves_mem hm
    refine ⟨h1, h2, (by rw [h3]; intro hcon; cases hcon),
      (by rw [h5]; intro hcon; cases hcon), (by rw [h4]; intro hcon; cases hcon)⟩
  · next h =>
    obtain ⟨h1, h2, h3, h4, h5⟩ := getSlidingMoves_mem hm
    refine ⟨h1, h2, (by rw [h3]; intro hcon; cases hcon),
      (by rw [h5]; intro hcon; cases hcon), (by rw [h4]; intro hcon; cases hcon)⟩
  · next h =>
    obtain ⟨h1, h2, h3, h4, h5⟩ := getSlidingMoves_mem hm
    refine ⟨h1, h2, (by rw [h3]; intro hcon; cases hcon),
      (by rw [h5]; intro hcon; cases hcon), (by rw [h4]; intro hcon; cases hcon)⟩
  · next h =>
    obtain ⟨h1, h2, h3, h4, h5⟩ := getKingMoves_mem h hm
    refine ⟨h1, h2, (by rw [h3]; intro hcon; cases hcon),
      (by rw [h4]; intro hcon; cases hcon), h5⟩
  · simp at hm

/-- The board `legalFilter` leaves behind keeps every square's type and
    color, the en-passant target and the castling rights, as long as every
    filtered move has a real destination square. -/
theorem legalFilter_shape :
    ∀ (l : List Move) (b : Board),
    (∀ m ∈ l, m.to_.isValid = true ∧
      (m.isEnPassant = true → m.from_.row ≠ m.to_.row ∧ m.from_.col ≠ m.to_.col)) →
    pieceShapeEq (legalFilter b l).2 b ∧
    (legalFilter b l).2.enPassantTarget = b.enPassantTarget ∧
    (legalFilter b l).2.castlingRights = b.castlingRights
  | [], b, _ => ⟨pieceShapeEq_refl b, rfl, rfl⟩
  | m :: rest, b, hl => by
      have hw := wouldBeInCheck_shape b m (hl m (List.mem_cons_self m rest)).1
        (hl m (List.mem_cons_self m rest)).2
      have ih := legalFilter_shape rest (wouldBeInCheck b m).2
        (fun mv hmv => hl mv (List.mem_cons_of_mem m hmv))
      unfold legalFilter
      refine ⟨pieceShapeEq_trans ih.1 hw.1, ?_, ?_⟩
      · rw [ih.2.1, hw.2.1]
      · rw [ih.2.2, hw.2.2]

/-- Every move surviving `legalFilter` came from the input list and passed
    `wouldBeInCheck` on a board shape-equal to the input board. -/
theorem mem_legalFilter :
    ∀ (l : List Move) (b : Board),
    (∀ mv ∈ l, mv.to_.isValid = true ∧
      (mv.isEnPassant = true → mv.from_.row ≠ mv.to_.row ∧ mv.from_.col ≠ mv.to_.col)) →
    ∀ {m : Move}, m ∈ (legalFilter b l).1 →
    m ∈ l ∧ ∃ b0, pieceShapeEq b0 b ∧ (wouldBeInCheck b0 m).1 = false
  | [], b, _, m, hm => by simp [legalFilter] at hm
  | mv :: rest, b, hl, m, hm => by
      have hw := wouldBeInCheck_shape b mv (hl mv (List.mem_cons_self mv rest)).1
        (hl mv (List.mem_cons_self mv rest)).2
      unfold legalFilter at hm
      dsimp only at hm
      by_cases hchk : (wouldBeInCheck b mv).1 = true
      · rw [if_pos hchk] at hm
        obtain ⟨hmem, b0, hb0, hval⟩ := mem_legalFilter rest (wouldBeInCheck b mv).2
          (fun x hx => hl x (List.mem_cons_of_mem mv hx)) hm
        exact ⟨List.mem_cons_of_mem mv hmem,
          b0, pieceShapeEq_trans hb0 hw.1, hval⟩
      · rw [if_neg hchk, List.mem_cons] at hm
        rcases hm with rfl | hm
        · exact ⟨List.mem_cons_self m rest,
            b, pieceShapeEq_refl b, Bool.not_eq_true _ ▸ hchk⟩
        · obtain ⟨hmem, b0, hb0, hval⟩ := mem_legalFilter rest (wouldBeInCheck b mv).2
            (fun x hx => hl x (List.mem_cons_of_mem mv hx)) hm
          exact ⟨List.mem_cons_of_mem mv hmem,
            b0, pieceShapeEq_trans hb0 hw.1, hval⟩

theorem pseudo_filter_hyps (b : Board) (pos : Position) :
    ∀ mv ∈ getPseudoLegalMoves b pos, mv.to_.isValid = true ∧
      (mv.isEnPassant = true → mv.from_.row ≠ mv.to_.row ∧ mv.from_.col ≠ mv.to_.col) :=
  fun _ hmv => ⟨(pseudo_basics hmv).2.1, (pseudo_basics hmv).2.2.2.1⟩

theorem getLegalMoves_shape (b : Board) (turn : Color) (pos : Position) :
    pieceShapeEq (getLegalMoves b turn pos).2 b ∧
    (getLegalMoves b turn pos).2.enPassantTarget = b.enPassantTarget ∧
    (getLegalMoves b turn pos).2.castlingRights = b.castlingRights := by
  unfold getLegalMoves
  dsimp only
  split
  · exact ⟨pieceShapeEq_refl b, rfl, rfl⟩
  · exact legalFilter_shape _ b (pseudo_filter_hyps b pos)

theorem mem_getLegalMoves {b : Board} {turn : Color} {pos : Position} {m : Move}
    (hm : m ∈ (getLegalMoves b turn pos).1) :
    (getPiece b pos).isEmpty = false ∧ (getPiece b pos).color = turn ∧
    m ∈ getPseudoLegalMoves b pos ∧
    ∃ b0, pieceShapeEq b0 b ∧ (wouldBeInCheck b0 m).1 = false := by
  unfold getLegalMoves at hm
  dsimp only at hm
  split at hm
  · simp at hm
  · next hguard =>
    push_neg at hguard
    obtain ⟨hmem, b0, hb0, hval⟩ := mem_legalFilter _ b (pseudo_filter_hyps b pos) hm
    exact ⟨Bool.not_eq_true _ ▸ hguard.1, hguard.2, hmem, b0, hb0, hval⟩

theorem allScan_shape (color : Color) :
    ∀ (ps : List Position) (b : Board),
    pieceShapeEq (allScan b color ps).2 b ∧
    (allScan b color ps).2.enPassantTarget = b.enPassantTarget ∧
    (allScan b color ps).2.castlingRights = b.castlingRights
  | [], b => ⟨pieceShapeEq_refl b, rfl, rfl⟩
  | pos :: rest, b => by
      have hg := getLegalMoves_shape b color pos
      have ih := allScan_shape color rest (getLegalMoves b color pos).2
      unfold allScan
      refine ⟨pieceShapeEq_trans ih.1 hg.1, ?_, ?_⟩
      · rw [ih.2.1, hg.2.1]
      · rw [ih.2.2, hg.2.2]

theorem mem_allScan (color : Color) :
    ∀ (ps : List Position) (b : Board) {m : Move},
    m ∈ (allScan b color ps).1 →
    ∃ pos b0, pieceShapeEq b0 b ∧ m ∈ (getLegalMoves b0 color pos).1
  | [], b, m, hm => by simp [allScan] at hm
  | pos :: rest, b, m, hm => by
      have hg := getLegalMoves_shape b color pos
      unfold allScan at hm
      dsimp only at hm
      rw [List.mem_append] at hm
      rcases hm with hm | hm
      · exact ⟨pos, b, pieceShapeEq_refl b, hm⟩
      · obtain ⟨pos2, b0, hb0, hmem⟩ := mem_allScan color rest (getLegalMoves b color pos).2 hm
        exact ⟨pos2, b0, pieceShapeEq_trans hb0 hg.1, hmem⟩

theorem noMovesScan_eq (color : Color) :
    ∀ (ps : List Position) (b : Board),
    (noMovesScan b color ps).1 = (allScan b color ps).1.isEmpty
  | [], b => rfl
  | pos :: rest, b => by
      unfold noMovesScan allScan
      dsimp only
      by_cases hmv : (getLegalMoves b color pos).1.isEmpty = true
      · rw [if_pos hmv]
        have he : (getLegalMoves b color pos).1 = [] := List.isEmpty_iff.mp hmv
        rw [noMovesScan_eq color rest (getLegalMoves b color pos).2, he,
          List.nil_append]
      · rw [if_neg hmv]
        rcases hl : (getLegalMoves b color pos).1 with _ | ⟨x, xs⟩
        · rw [hl] at hmv
          simp at hmv
        · simp

theorem noMovesScan_shape (color : Color) :
    ∀ (ps : List Position) (b : Board),
    pieceShapeEq (noMovesScan b color ps).2 b ∧
    (noMovesScan b color ps).2.enPassantTarget = b.enPassantTarget ∧
    (noMovesScan b color ps).2.castlingRights = b.castlingRights
  | [], b => ⟨pieceShapeEq_refl b, rfl, rfl⟩
  | pos :: rest, b => by
      have hg := getLegalMoves_shape b color pos
      unfold noMovesScan
      dsimp only
      split
      · have ih := noMovesScan_shape color rest (getLegalMoves b color pos).2
        refine ⟨pieceShapeEq_trans ih.1 hg.1, ?_, ?_⟩
        · rw [ih.2.1, hg.2.1]
        · rw [ih.2.2, hg.2.2]
      · exact hg

theorem isCheckmate_shape (b : Board) (c : Color) :
    pieceShapeEq (isCheckmate b c).2 b ∧
    (isCheckmate b c).2.enPassantTarget = b.enPassantTarget ∧
    (isCheckmate b c).2.castlingRights = b.castlingRights := by
  unfold isCheckmate
  split
  · exact ⟨pieceShapeEq_refl b, rfl, rfl⟩
  · exact noMovesScan_shape c _ b

theorem isStalemate_shape (b : Board) (c : Color) :
    pieceShapeEq (isStalemate b c).2 b ∧
    (isStalemate b c).2.enPassantTarget = b.enPassantTarget ∧
    (isStalemate b c).2.castlingRights = b.castlingRights := by
  unfold isStalemate
  split
  · exact ⟨pieceShapeEq_refl b, rfl, rfl⟩
  · exact noMovesScan_shape c _ b

theorem getGameState_shape (b : Board) (c : Color) :
    pieceShapeEq (getGameState b c).2 b ∧
    (getGameState b c).2.enPassantTarget = b.enPassantTarget ∧
    (getGameState b c).2.castlingRights = b.castlingRights := by
  unfold getGameState
  dsimp only
  have h1 := isCheckmate_shape b c
  have h2 := isStalemate_shape (isCheckmate b c).2 c
  split
  · exact h1
  · have htrans : pieceShapeEq (isStalemate (isCheckmate b c).2 c).2 b :=
      pieceShapeEq_trans h2.1 h1.1
    have hep : (isStalemate (isCheckmate b c).2 c).2.enPassantTarget = b.enPassantTarget := by
      rw [h2.2.1, h1.2.1]
    have hcr : (isStalemate (isCheckmate b c).2 c).2.castlingRights = b.castlingRights := by
      rw [h2.2.2, h1.2.2]
    split
    · exact ⟨htrans, hep, hcr⟩
    · split
      · exact ⟨htrans, hep, hcr⟩
      · exact ⟨htrans, hep, hcr⟩

/-- Pure counterpart of `disableCastling` on the flags (proof helper). -/
def disableCastlingFlags (r : CastlingRights) (color : Color) (kingside : Bool) :
    CastlingRights :=
  if color = Color.White then
    if kingside then { r with wk := false } else { r with wq := false }
  else
    if kingside then { r with bk := false } else { r with bq := false }

theorem castlingRights_disableCastling (b : Board) (c : Color) (k : Bool) :
    (Board.disableCastling b c k).castlingRights = disableCastlingFlags b.castlingRights c k := by
  unfold Board.disableCastling disableCastlingFlags
  split_ifs <;> rfl

/-- A castling-rights state is pointwise weaker than another: every flag
    still set in the first was set in the second. -/
def rightsLe (r1 r2 : CastlingRights) : Prop :=
  (r1.wk = true → r2.wk = true) ∧ (r1.wq = true → r2.wq = true) ∧
  (r1.bk = true → r2.bk = true) ∧ (r1.bq = true → r2.bq = true)

theorem rightsLe_refl (r : CastlingRights) : rightsLe r r :=
  ⟨id, id, id, id⟩

theorem rightsLe_disable_left {r1 r2 : CastlingRights} (c : Color) (k : Bool)
    (h : rightsLe r1 r2) : rightsLe (disableCastlingFlags r1 c k) r2 := by
  unfold disableCastlingFlags rightsLe
  obtain ⟨h1, h2, h3, h4⟩ := h
  split_ifs <;> dsimp only <;> refine ⟨?_, ?_, ?_, ?_⟩ <;> intro x <;>
    first | exact h1 x | exact h2 x | exact h3 x | exact h4 x | simp at x

theorem castlingRights_clearEnPassantTarget (b : Board) :
    (Board.clearEnPassantTarget b).castlingRights = b.castlingRights := rfl

theorem castlingRights_setEnPassantTarget (b : Board) (p : Position) :
    (Board.setEnPassantTarget b p).castlingRights = b.castlingRights := rfl

/-- `makeMove`'s board mutations only ever clear castling flags. -/
theorem makeMoveBoard_rightsLe (b : Board) (m : Move) :
    rightsLe (makeMoveBoard b m).castlingRights b.castlingRights := by
  unfold makeMoveBoard
  dsimp only
  split_ifs <;>
    simp only [castlingRights_disableCastling, castlingRights_clearEnPassantTarget,
      castlingRights_setEnPassantTarget, Board.castlingRights_setPiece,
      Board.castlingRights_movePiece, Board.castlingRights_removePiece] <;>
    (repeat apply rightsLe_disable_left) <;>
    exact rightsLe_refl _

theorem isLegalMove_snd (b : Board) (t : Color) (m : Move) :
    (isLegalMove b t m).2 = (getLegalMoves b t m.from_).2 := rfl

theorem enPassantTarget_disableCastling (b : Board) (c : Color) (k : Bool) :
    (Board.disableCastling b c k).enPassantTarget = b.enPassantTarget := by
  unfold Board.disableCastling
  split_ifs <;> rfl

theorem enPassantTarget_setEnPassantTarget (b : Board) (p : Position) :
    (Board.setEnPassantTarget b p).enPassantTarget = p := rfl

theorem enPassantTarget_clearEnPassantTarget (b : Board) :
    (Board.clearEnPassantTarget b).enPassantTarget = ⟨-1, -1⟩ := rfl

/-- The en-passant target a successful move leaves behind: it is set
    exactly when the moved piece is a pawn advancing two rows, to the
    square between departure and arrival, and cleared otherwise. -/
theorem makeMoveBoard_enPassantTarget (b : Board) (m : Move) :
    (makeMoveBoard b m).enPassantTarget =
      if (Board.getPiece b m.from_).type = PieceType.Pawn ∧
          (m.to_.row - m.from_.row).natAbs = 2
      then ⟨Int.tdiv (m.from_.row + m.to_.row) 2, m.from_.col⟩
      else ⟨-1, -1⟩ := by
  unfold makeMoveBoard
  dsimp only
  split_ifs <;>
    simp_all only [enPassantTarget_disableCastling, enPassantTarget_setEnPassantTarget,
      enPassantTarget_clearEnPassantTarget, Board.enPassantTarget_setPiece,
      Board.enPassantTarget_movePiece, Board.enPassantTarget_removePiece]

theorem makeMove_true_elim {st : LState} {m : Move} {st1 : LState}
    (h : makeMove st m = (true, st1)) :
    (isLegalMove st.board st.currentTurn m).1 = true ∧
    st1.board = makeMoveBoard (isLegalMove st.board st.currentTurn m).2 m := by
  unfold makeMove at h
  dsimp only at h
  split at h
  · simp at h
  · next hcase =>
    rw [not_not] at hcase
    have h2 := congrArg Prod.snd h
    dsimp only at h2
    refine ⟨hcase, ?_⟩
    rw [← h2]

theorem isLegalMove_true_elim {b : Board} {turn : Color} {m : Move}
    (h : (isLegalMove b turn m).1 = true) :
    ∃ lm ∈ (getLegalMoves b turn m.from_).1, lm.to_ = m.to_ ∧ lm.promotion = m.promotion := by
  unfold isLegalMove at h
  dsimp only at h
  rw [List.any_eq_true] at h
  obtain ⟨lm, hmem, hp⟩ := h
  rw [decide_eq_true_eq] at hp
  exact ⟨lm, hmem, hp⟩

/-- C7: after every successful `makeMove(m)`, the en-passant target is a
    valid square exactly when the moved piece was a pawn advancing two
    rows; in that case it is the square passed over (same column as
    departure and arrival, row midway between them), and in every other
    case it is the invalid (-1,-1) sentinel. -/
theorem C7_enpassant_target_iff (st : LState) (m : Move) (st1 : LState)
    (h : makeMove st m = (true, st1)) :
    (st1.board.enPassantTarget.isValid = true ↔
      ((Board.getPiece st.board m.from_).type = PieceType.Pawn ∧
        (m.to_.row - m.from_.row).natAbs = 2)) ∧
    (((Board.getPiece st.board m.from_).type = PieceType.Pawn ∧
        (m.to_.row - m.from_.row).natAbs = 2) →
      (st1.board.enPassantTarget.col = m.from_.col ∧
       st1.board.enPassantTarget.col = m.to_.col ∧
       2 * st1.board.enPassantTarget.row = m.from_.row + m.to_.row)) ∧
    (¬((Board.getPiece st.board m.from_).type = PieceType.Pawn ∧
        (m.to_.row - m.from_.row).natAbs = 2) →
      st1.board.enPassantTarget = ⟨-1, -1⟩) := by
  obtain ⟨hleg, hboard⟩ := makeMove_true_elim h
  have hshape : pieceShapeEq (isLegalMove st.board st.currentTurn m).2 st.board := by
    rw [isLegalMove_snd]
    exact (getLegalMoves_shape st.board st.currentTurn m.from_).1
  have htype_eq : (Board.getPiece (isLegalMove st.board st.currentTurn m).2 m.from_).type =
      (Board.getPiece st.board m.from_).type := (hshape m.from_).1
  rw [hboard, makeMoveBoard_enPassantTarget, htype_eq]
  by_cases hcond : (Board.getPiece st.board m.from_).type = PieceType.Pawn ∧
      (m.to_.row - m.from_.row).natAbs = 2
  · rw [if_pos hcond]
    obtain ⟨lm, hlmem, hlm_to, _⟩ := isLegalMove_true_elim hleg
    obtain ⟨hne, _, hpseudo, _⟩ := mem_getLegalMoves hlmem
    have hpawn_gen : lm ∈ getPawnMoves st.board m.from_ := by
      unfold getPseudoLegalMoves at hpseudo
      rw [hcond.1] at hpseudo
      exact hpseudo
    have hfacts := getPawnMoves_mem hpawn_gen
    have hfrom : lm.from_ = m.from_ := hfacts.1
    have hdd := hfacts.2.2.2.2.2 (by rw [hlm_to, hfrom]; exact hcond.2)
    obtain ⟨hstart, hto_eq, _⟩ := hdd
    have hto_eq2 : m.to_ = ⟨m.from_.row +
        2 * (if (Board.getPiece st.board m.from_).color = Color.White then (-1 : Int) else 1),
        m.from_.col⟩ := by
      rw [← hlm_to, hto_eq]
    have hfromv : m.from_.isValid = true := by
      apply pos_valid_of_nonempty (b := st.board)
      intro hcontra
      have h2 : (Board.getPiece st.board m.from_).isEmpty = true := by
        rw [Piece.isEmpty_iff]
        exact hcontra
      rw [h2] at hne
      cases hne
    rw [Position.isValid_iff] at hfromv
    have htcol : m.to_.col = m.from_.col := by rw [hto_eq2]
    rcases em ((Board.getPiece st.board m.from_).color = Color.White) with hcol | hcol
    · rw [if_pos hcol] at hstart hto_eq2
      have htrow : m.to_.row = 4 := by rw [hto_eq2]; dsimp only; rw [hstart]; decide
      have hdivval : Int.tdiv (m.from_.row + m.to_.row) 2 = 5 := by
        rw [hstart, htrow]
        decide
      refine ⟨?_, ?_, ?_⟩
      · refine ⟨fun _ => hcond, fun _ => ?_⟩
        rw [Position.isValid_mk, hdivval]
        omega
      · intro _
        refine ⟨rfl, htcol.symm, ?_⟩
        dsimp only
        rw [hdivval, hstart, htrow]
        decide
      · intro hn
        exact absurd hcond hn
    · rw [if_neg hcol] at hstart hto_eq2
      have htrow : m.to_.row = 3 := by rw [hto_eq2]; dsimp only; rw [hstart]; decide
      have hdivval : Int.tdiv (m.from_.row + m.to_.row) 2 = 2 := by
        rw [hstart, htrow]
        decide
      refine ⟨?_, ?_, ?_⟩
      · refine ⟨fun _ => hcond, fun _ => ?_⟩
        rw [Position.isValid_mk, hdivval]
        omega
      · intro _
        refine ⟨rfl, htcol.symm, ?_⟩
        dsimp only
        rw [hdivval, hstart, htrow]
        decide
      · intro hn
        exact absurd hcond hn
  · rw [if_neg hcond]
    refine ⟨?_, fun hx => absurd hx hcond, fun _ => rfl⟩
    constructor
    · intro hx
      exact absurd hx (by decide)
    · intro hx
      exact absurd hx hcond

end ChessLogic

/-! ### Concrete positions used by the claim theorems -/

/-- The game state right after `Board::initialize`: White to move, empty
    history. -/
def initialState : ChessLogic.LState := ⟨Board.initialBoard, Color.White, []⟩

/-- The pawn move e2-e3 ((6,4) to (5,4)). -/
def pawnE2E3 : Move := ⟨⟨6, 4⟩, ⟨5, 4⟩, PieceType.None, false, false, false⟩

/-- White king e1, white rook h1, black king a8; all castling flags set;
    White to move. -/
def boardKRK : Board :=
  ⟨fun p =>
      if p = ⟨7, 4⟩ then Piece.mk2 PieceType.King Color.White
      else if p = ⟨7, 7⟩ then Piece.mk2 PieceType.Rook Color.White
      else if p = ⟨0, 0⟩ then Piece.mk2 PieceType.King Color.Black
      else Piece.empty,
   ⟨-1, -1⟩, ⟨true, true, true, true⟩⟩

/-- The legality-engine state over `boardKRK`. -/
def stateKRK : ChessLogic.LState := ⟨boardKRK, Color.White, []⟩

/-- The king move e1-e2 ((7,4) to (6,4)). -/
def kingE1E2 : Move := ⟨⟨7, 4⟩, ⟨6, 4⟩, PieceType.None, false, false, false⟩

namespace ChessLogic

/-- C1: the spec claims `makeMove(m)` followed by `undoMove()` restores the
    Board exactly, including every piece's `hasMoved` flag.  Evaluating the
    code at the initial position on the legal pawn move e2-e3 shows the
    pawn's `hasMoved` flag is `true` after the round trip although it was
    `false` before: `wouldBeInCheck`'s restore line reads the flag back
    through a reference into the square it just overwrote, so the saved
    value is never written back. -/
theorem C1_make_undo_roundtrip_flips_hasMoved :
    (Board.getPiece initialState.board ⟨6, 4⟩).hasMoved = false ∧
    (makeMove initialState pawnE2E3).1 = true ∧
    (undoMove (makeMove initialState pawnE2E3).2).1 = true ∧
    (Board.getPiece (undoMove (makeMove initialState pawnE2E3).2).2.board
      ⟨6, 4⟩).hasMoved = true := by
  decide

/-- C9: the spec claims every query leaves the observable state unchanged.
    Evaluating `getLegalMoves` at the initial position on the a2 pawn shows
    the call sets the queried piece's `hasMoved` flag (the same
    `wouldBeInCheck` aliasing slip as in C1), an observable mutation. -/
theorem C9_getLegalMoves_query_mutates_board :
    (Board.getPiece Board.initialBoard ⟨6, 0⟩).hasMoved = false ∧
    (Board.getPiece (getLegalMoves Board.initialBoard Color.White ⟨6, 0⟩).2
      ⟨6, 0⟩).hasMoved = true := by
  decide

/-- C3: `isCheckmate(C)` is true exactly when `isInCheck(C)` and
    `getAllLegalMoves(C)` is empty, and `isStalemate(C)` exactly when not
    in check and `getAllLegalMoves(C)` is empty — for every board and
    color (both sides run the same scan over the same evolving board). -/
theorem C3_checkmate_stalemate_characterization (b : Board) (color : Color) :
    ((isCheckmate b color).1 = true ↔
      isInCheck b color = true ∧ (getAllLegalMoves b color).1 = []) ∧
    ((isStalemate b color).1 = true ↔
      isInCheck b color = false ∧ (getAllLegalMoves b color).1 = []) := by
  have hscan := noMovesScan_eq color (Board.findPieces b color) b
  unfold isCheckmate isStalemate getAllLegalMoves
  cases hc : isInCheck b color <;>
    simp [hc, hscan, List.isEmpty_iff]

/-- C8 counterexample: the claim says a cleared castling flag is never set
    back by makeMove, undoMove or queries.  A legal king move clears
    White's kingside flag and the following `undoMove` sets it back to
    true. -/
theorem C8_undoMove_restores_cleared_flag :
    Board.canCastleKingside stateKRK.board Color.White = true ∧
    (makeMove stateKRK kingE1E2).1 = true ∧
    Board.canCastleKingside (makeMove stateKRK kingE1E2).2.board Color.White = false ∧
    (undoMove (makeMove stateKRK kingE1E2).2).1 = true ∧
    Board.canCastleKingside (undoMove (makeMove stateKRK kingE1E2).2).2.board
      Color.White = true := by
  decide

/-- C8 amended: once cleared, a castling flag is never set back to true by
    `makeMove` (legal or rejected) or by any query (`getLegalMoves`,
    `isLegalMove`, `getAllLegalMoves`, `isCheckmate`, `isStalemate`,
    `getGameState`; `isInCheck` and `isAttacked` do not touch the board at
    all).  Only `undoMove` (restoring the pre-move rights, as in the
    counterexample) and `Board::initialize` can re-enable a flag. -/
theorem C8_rights_monotone_except_undo :
    (∀ (st : LState) (m : Move),
      rightsLe (makeMove st m).2.board.castlingRights st.board.castlingRights) ∧
    (∀ (b : Board) (turn : Color) (pos : Position),
      (getLegalMoves b turn pos).2.castlingRights = b.castlingRights) ∧
    (∀ (b : Board) (turn : Color) (m : Move),
      (isLegalMove b turn m).2.castlingRights = b.castlingRights) ∧
    (∀ (b : Board) (c : Color),
      (getAllLegalMoves b c).2.castlingRights = b.castlingRights ∧
      (isCheckmate b c).2.castlingRights = b.castlingRights ∧
      (isStalemate b c).2.castlingRights = b.castlingRights ∧
      (getGameState b c).2.castlingRights = b.castlingRights) := by
  refine ⟨?_, ?_, ?_, ?_⟩
  · intro st m
    unfold makeMove
    dsimp only
    have hb0 : (isLegalMove st.board st.currentTurn m).2.castlingRights =
        st.board.castlingRights := by
      rw [isLegalMove_snd]
      exact (getLegalMoves_shape st.board st.currentTurn m.from_).2.2
    split
    · dsimp only
      rw [hb0]
      exact rightsLe_refl _
    · dsimp only
      have hle := makeMoveBoard_rightsLe (isLegalMove st.board st.currentTurn m).2 m
      rw [hb0] at hle
      exact hle
  · intro b turn pos
    exact (getLegalMoves_shape b turn pos).2.2
  · intro b turn m
    rw [isLegalMove_snd]
    exact (getLegalMoves_shape b turn m.from_).2.2
  · intro b c
    exact ⟨(allScan_shape c (Board.findPieces b c) b).2.2,
      (isCheckmate_shape b c).2.2, (isStalemate_shape b c).2.2,
      (getGameState_shape b c).2.2⟩

/-- Witness for the C8 amended theorem at a concrete input: after the legal
    pawn move e2-e3 from the initial position White's kingside flag is
    still set, and the theorem's monotonicity implication recovers that it
    was set before the move. -/
theorem C8_rights_monotone_witness :
    (makeMove initialState pawnE2E3).2.board.castlingRights.wk = true ∧
    initialState.board.castlingRights.wk = true :=
  ⟨by decide, (C8_rights_monotone_except_undo.1 initialState pawnE2E3).1 (by decide)⟩

/-- The double pawn push e2-e4 ((6,4) to (4,4)). -/
def pawnE2E4 : Move := ⟨⟨6, 4⟩, ⟨4, 4⟩, PieceType.None, false, false, false⟩

/-- Witness for C7: the double pawn push e2-e4 from the initial position is
    a successful makeMove, and the theorem applies to it. -/
theorem C7_enpassant_target_iff_witness :
    makeMove initialState pawnE2E4 = (true, (makeMove initialState pawnE2E4).2) ∧
    ((makeMove initialState pawnE2E4).2.board.enPassantTarget.isValid = true ↔
      ((Board.getPiece initialState.board pawnE2E4.from_).type = PieceType.Pawn ∧
        (pawnE2E4.to_.row - pawnE2E4.from_.row).natAbs = 2)) := by
  have hm1 : (makeMove initialState pawnE2E4).1 = true := by decide
  have heq : makeMove initialState pawnE2E4 = (true, (makeMove initialState pawnE2E4).2) :=
    Prod.ext_iff.mpr ⟨hm1, rfl⟩
  exact ⟨heq, (C7_enpassant_target_iff initialState pawnE2E4 _ heq).1⟩


end ChessLogic

/-- A board with only a black king at a8 (White has no pieces at all). -/
def loneBlackKingBoard : Board :=
  ⟨fun p => if p = ⟨0, 0⟩ then Piece.mk2 PieceType.King Color.Black else Piece.empty,
   ⟨-1, -1⟩, ⟨false, false, false, false⟩⟩

/-- Legality-engine state over `loneBlackKingBoard`, White to move. -/
def loneBlackKingState : ChessLogic.LState := ⟨loneBlackKingBoard, Color.White, []⟩

/-- C4 counterexample: the claim says the LegalityEngine's `isInCheck`
    returns true when the king is missing; on the cleared board (no White
    king) `ChessLogic::isInCheck` returns false. -/
theorem C4_missing_king_chesslogic_not_in_check :
    (Board.findKing Board.clear Color.White).isValid = false ∧
    ChessLogic.isInCheck Board.clear Color.White = false := by
  decide

/-- C4 amended: when `findKing` comes back invalid, the legality engine's
    `isInCheck` (ChessLogic.cpp) returns FALSE, while the search engine's
    own `isInCheck` (AIPlayer.cpp) is the one that applies the defensive
    "absent king counts as in check" sentinel and returns true. -/
theorem C4_missing_king_sentinel_split (b : Board) (c : Color)
    (h : (Board.findKing b c).isValid = false) :
    ChessLogic.isInCheck b c = false ∧ AIPlayer.isInCheck b c = true := by
  unfold ChessLogic.isInCheck AIPlayer.isInCheck
  simp [h]

/-- Witness for the C4 amended theorem: on the lone-black-king board White
    has no king; the theorem yields false/true for the two engines. -/
theorem C4_missing_king_sentinel_split_witness :
    (Board.findKing loneBlackKingBoard Color.White).isValid = false ∧
    ChessLogic.isInCheck loneBlackKingBoard Color.White = false ∧
    AIPlayer.isInCheck loneBlackKingBoard Color.White = true :=
  ⟨by decide,
   (C4_missing_king_sentinel_split loneBlackKingBoard Color.White (by decide)).1,
   (C4_missing_king_sentinel_split loneBlackKingBoard Color.White (by decide)).2⟩

/-- C5 counterexample: with no legal move available, `findBestMove` returns
    the default-constructed `Move{}`, whose positions are (0,0) — a VALID
    position — not the invalid (-1,-1) sentinel the claim describes. -/
theorem C5_no_moves_default_move_is_origin :
    (ChessLogic.getAllLegalMoves loneBlackKingState.board Color.White).1 = [] ∧
    (AIPlayer.findBestMove loneBlackKingState Color.White AIDifficulty.Medium
        (fun _ l => l) 0).from_ = ⟨0, 0⟩ ∧
    (AIPlayer.findBestMove loneBlackKingState Color.White AIDifficulty.Medium
        (fun _ l => l) 0).from_.isValid = true ∧
    ¬((AIPlayer.findBestMove loneBlackKingState Color.White AIDifficulty.Medium
        (fun _ l => l) 0).from_ = ⟨-1, -1⟩) := by
  decide

/-- C5 amended: whenever the side to move has no legal move, `findBestMove`
    returns the default-constructed Move — from and to both (0,0) (valid
    coordinates, not -1) and all other fields cleared; it always returns
    some Move (it is a total function). -/
theorem C5_no_moves_returns_default_move (st : ChessLogic.LState) (c : Color)
    (difficulty : AIDifficulty) (reorder : Board → List Move → List Move) (pick : Nat)
    (h : (ChessLogic.getAllLegalMoves st.board c).1 = []) :
    AIPlayer.findBestMove st c difficulty reorder pick = Move.defaultMove ∧
    Move.defaultMove.from_ = ⟨0, 0⟩ ∧ Move.defaultMove.to_ = ⟨0, 0⟩ := by
  refine ⟨?_, rfl, rfl⟩
  unfold AIPlayer.findBestMove
  simp [h]

/-- Witness for the C5 amended theorem at the lone-black-king state. -/
theorem C5_no_moves_returns_default_move_witness :
    (ChessLogic.getAllLegalMoves loneBlackKingState.board Color.White).1 = [] ∧
    AIPlayer.findBestMove loneBlackKingState Color.White AIDifficulty.Easy
      (fun _ l => l) 3 = Move.defaultMove :=
  ⟨by decide,
   (C5_no_moves_returns_default_move loneBlackKingState Color.White AIDifficulty.Easy
      (fun _ l => l) 3 (by decide)).1⟩

/-- A board holding a single degenerate piece: a pawn whose color is
    `Color::None` (constructible in the source as `Piece(Pawn, None)` and
    placeable through `setPiece`). -/
def nonePawnBoard : Board :=
  ⟨fun p => if p = ⟨0, 0⟩ then Piece.mk2 PieceType.Pawn Color.None else Piece.empty,
   ⟨-1, -1⟩, ⟨false, false, false, false⟩⟩

/-- C10 counterexample: `evaluateBoard` is NOT antisymmetric on every
    Board: a nonempty piece with color None is scored with a minus sign for
    BOTH aiColors, so both evaluations are -100 here instead of negating
    each other. -/
theorem C10_evaluate_not_antisymmetric_on_all_boards :
    AIPlayer.evaluateBoard nonePawnBoard Color.White = -100 ∧
    AIPlayer.evaluateBoard nonePawnBoard Color.Black = -100 ∧
    ¬(AIPlayer.evaluateBoard nonePawnBoard Color.White =
      -(AIPlayer.evaluateBoard nonePawnBoard Color.Black)) := by
  decide

/-- Every nonempty square holds a White or Black piece (scanned squares
    only; this is what rules out the counterexample's degenerate boards). -/
def wellColored (b : Board) : Bool :=
  Board.scanSquares.all fun p =>
    decide ((Board.getPiece b p).isEmpty = true ∨ (Board.getPiece b p).color ≠ Color.None)

theorem evalFold_antisymmetric (b : Board) :
    ∀ (l : List Position),
    (∀ p ∈ l, (Board.getPiece b p).isEmpty = true ∨ (Board.getPiece b p).color ≠ Color.None) →
    ∀ (acc : Int),
    List.foldl (fun score sq =>
      let piece := Board.getPiece b sq
      if piece.isEmpty then score
      else
        let value := AIPlayer.getPieceValue piece.type
        let bonus := AIPlayer.getPositionBonus sq piece.type piece.color
        if piece.color = Color.White then score + (value + bonus)
        else score - (value + bonus)) acc l =
    -(List.foldl (fun score sq =>
      let piece := Board.getPiece b sq
      if piece.isEmpty then score
      else
        let value := AIPlayer.getPieceValue piece.type
        let bonus := AIPlayer.getPositionBonus sq piece.type piece.color
        if piece.color = Color.Black then score + (value + bonus)
        else score - (value + bonus)) (-acc) l)
  | [], _, acc => by simp
  | p :: rest, h, acc => by
      have hp := h p (List.mem_cons_self p rest)
      have hrest := fun q hq => h q (List.mem_cons_of_mem p hq)
      dsimp only [List.foldl]
      by_cases he : (Board.getPiece b p).isEmpty = true
      · rw [if_pos he, if_pos he]
        exact evalFold_antisymmetric b rest hrest acc
      · rw [if_neg he, if_neg he]
        rcases hp with hp | hp
        · exact absurd hp he
        · set t := AIPlayer.getPieceValue (Board.getPiece b p).type +
            AIPlayer.getPositionBonus p (Board.getPiece b p).type (Board.getPiece b p).color
          by_cases hw : (Board.getPiece b p).color = Color.White
          · rw [if_pos hw, if_neg (by rw [hw]; intro hcon; cases hcon)]
            have := evalFold_antisymmetric b rest hrest (acc + t)
            rw [this]
            have harith : -(acc + t) = -acc - t := by ring
            rw [harith]
          · have hb2 : (Board.getPiece b p).color = Color.Black := by
              rcases hcc : (Board.getPiece b p).color with _ | _ | _
              · exact absurd hcc hp
              · exact absurd hcc hw
              · rfl
            rw [if_neg hw, if_pos hb2]
            have := evalFold_antisymmetric b rest hrest (acc - t)
            rw [this]
            have harith : -(acc - t) = -acc + t := by ring
            rw [harith]

/-- C10 amended: on every board whose nonempty pieces are all White or
    Black (anything reachable from `initialize` through the move paths),
    static evaluation is antisymmetric in the evaluated color. -/
theorem C10_evaluate_antisymmetric_wellColored (b : Board)
    (h : wellColored b = true) :
    AIPlayer.evaluateBoard b Color.White = -(AIPlayer.evaluateBoard b Color.Black) := by
  unfold AIPlayer.evaluateBoard
  have hall : ∀ p ∈ Board.scanSquares,
      (Board.getPiece b p).isEmpty = true ∨ (Board.getPiece b p).color ≠ Color.None := by
    intro p hpmem
    have := List.all_eq_true.mp h p hpmem
    simpa using this
  have := evalFold_antisymmetric b Board.scanSquares hall 0
  simpa using this

/-- Witness for the C10 amended theorem on the standard initial board. -/
theorem C10_evaluate_antisymmetric_witness :
    wellColored Board.initialBoard = true ∧
    AIPlayer.evaluateBoard Board.initialBoard Color.White =
      -(AIPlayer.evaluateBoard Board.initialBoard Color.Black) :=
  ⟨by decide, C10_evaluate_antisymmetric_wellColored Board.initialBoard (by decide)⟩


namespace AIPlayer

open Board

/-! ### C6: alpha-beta pruning returns the unpruned minimax value -/

/-- The fail-soft alpha-beta contract: a value `r` returned for true value
    `v` under window `(alpha, beta)` is an upper bound on `v` when failing
    low, exact when strictly inside the window, and a lower bound when
    failing high. -/
def abspec (v r alpha beta : Int) : Prop :=
  (r ≤ alpha → v ≤ r) ∧ (alpha < r → r < beta → r = v) ∧ (beta ≤ r → r ≤ v)

theorem abspec_of_eq {v r alpha beta : Int} (h : r = v) : abspec v r alpha beta := by
  subst h
  exact ⟨fun _ => le_refl _, fun _ _ => rfl, fun _ => le_refl _⟩

theorem plainMaxGo_ge (child : Move → Int) :
    ∀ (l : List Move) (acc : Int), acc ≤ plainMaxGo child l acc
  | [], _ => le_refl _
  | _ :: rest, _ =>
      le_trans (le_max_left _ _) (plainMaxGo_ge child rest _)

theorem plainMinGo_le (child : Move → Int) :
    ∀ (l : List Move) (acc : Int), plainMinGo child l acc ≤ acc
  | [], _ => le_refl _
  | _ :: rest, _ =>
      le_trans (plainMinGo_le child rest _) (min_le_left _ _)

theorem plainMaxGo_perm (child : Move → Int) :
    ∀ {l1 l2 : List Move}, l1.Perm l2 →
      ∀ acc : Int, plainMaxGo child l1 acc = plainMaxGo child l2 acc := by
  intro l1 l2 h
  induction h with
  | nil => intro acc; rfl
  | cons m _ ih => intro acc; simp only [plainMaxGo]; exact ih _
  | swap x y l => intro acc; simp only [plainMaxGo]; rw [sup_right_comm]
  | trans _ _ ih1 ih2 => intro acc; rw [ih1, ih2]

theorem plainMinGo_perm (child : Move → Int) :
    ∀ {l1 l2 : List Move}, l1.Perm l2 →
      ∀ acc : Int, plainMinGo child l1 acc = plainMinGo child l2 acc := by
  intro l1 l2 h
  induction h with
  | nil => intro acc; rfl
  | cons m _ ih => intro acc; simp only [plainMinGo]; exact ih _
  | swap x y l => intro acc; simp only [plainMinGo]; rw [inf_right_comm]
  | trans _ _ ih1 ih2 => intro acc; rw [ih1, ih2]

/-- The maximizing alpha-beta loop satisfies the fail-soft contract with
    respect to the unpruned fold, provided every child call satisfies it on
    its own window.  The invariant distinguishes the phase where every
    child so far failed low (`best` may trail the plain accumulator) from
    the phase where some child landed inside the window (the accumulators
    agree exactly and `alpha` has risen to them). -/
theorem abMaxGo_spec (child : Move → Int → Int → Int) (pchild : Move → Int)
    (alpha0 beta : Int)
    (hchild : ∀ (m : Move) (a2 : Int), -2147483648 ≤ a2 → a2 < beta →
        abspec (pchild m) (child m a2 beta) a2 beta)
    (h0 : -2147483648 ≤ alpha0) (hab : alpha0 < beta) :
    ∀ (l : List Move) (alpha best pbest : Int),
    ((pbest ≤ best ∧ best ≤ alpha0 ∧ alpha = alpha0) ∨
     (pbest = best ∧ alpha = best ∧ alpha0 < best ∧ best < beta)) →
    abspec (plainMaxGo pchild l pbest) (abMaxGo child beta l alpha best) alpha0 beta
  | [], alpha, best, pbest, hinv => by
      simp only [plainMaxGo, abMaxGo]
      rcases hinv with ⟨h1, h2, h3⟩ | ⟨h1, h2, h3, h4⟩ <;>
        exact ⟨fun _ => by omega, fun ha hb => by omega, fun hc => by omega⟩
  | m :: l, alpha, best, pbest, hinv => by
      have hwa : -2147483648 ≤ alpha := by
        rcases hinv with ⟨h1, h2, h3⟩ | ⟨h1, h2, h3, h4⟩ <;> omega
      have hwab : alpha < beta := by
        rcases hinv with ⟨h1, h2, h3⟩ | ⟨h1, h2, h3, h4⟩ <;> omega
      obtain ⟨hc1, hc2, hc3⟩ := hchild m alpha hwa hwab
      simp only [plainMaxGo, abMaxGo]
      have hm1 := le_max_left alpha (child m alpha beta)
      have hm2 := le_max_right alpha (child m alpha beta)
      have hm3 := max_choice alpha (child m alpha beta)
      have hn1 := le_max_left best (child m alpha beta)
      have hn2 := le_max_right best (child m alpha beta)
      have hn3 := max_choice best (child m alpha beta)
      have hq1 := le_max_left pbest (pchild m)
      have hq2 := le_max_right pbest (pchild m)
      have hq3 := max_choice pbest (pchild m)
      split
      · next hcut =>
        -- beta-cutoff: the child failed high, so its plain value is at
        -- least `e` and the returned max is a sound lower bound.
        have hebeta : beta ≤ child m alpha beta := by
          rcases hm3 with h | h <;> omega
        have hep : child m alpha beta ≤ pchild m := hc3 hebeta
        have hge := plainMaxGo_ge pchild l (max pbest (pchild m))
        rcases hinv with ⟨h1, h2, h3⟩ | ⟨h1, h2, h3, h4⟩ <;>
          rcases hn3 with hn | hn <;>
            exact ⟨fun ha => by omega, fun ha hb => by omega, fun hc => by omega⟩
      · next hcut =>
        rw [not_le] at hcut
        rcases le_or_lt (child m alpha beta) alpha with hea | hea
        · -- the child failed low (or tied alpha): the phase is preserved
          have hpe : pchild m ≤ child m alpha beta := hc1 hea
          rcases hinv with ⟨h1, h2, h3⟩ | ⟨h1, h2, h3, h4⟩
          · exact abMaxGo_spec child pchild alpha0 beta hchild h0 hab l _ _ _
              (Or.inl ⟨by rcases hq3 with h | h <;> rcases hn3 with h' | h' <;> omega,
                       by rcases hn3 with h' | h' <;> omega,
                       by rcases hm3 with h' | h' <;> omega⟩)
          · exact abMaxGo_spec child pchild alpha0 beta hchild h0 hab l _ _ _
              (Or.inr ⟨by rcases hq3 with h | h <;> rcases hn3 with h' | h' <;> omega,
                       by rcases hm3 with h' | h' <;> rcases hn3 with h'' | h'' <;> omega,
                       by rcases hn3 with h' | h' <;> omega,
                       by rcases hn3 with h' | h' <;> omega⟩)
        · -- the child landed inside the window: value exact, phase B
          have heb : child m alpha beta < beta := by
            rcases hm3 with h | h <;> omega
          have hpe : child m alpha beta = pchild m := hc2 hea heb
          rcases hinv with ⟨h1, h2, h3⟩ | ⟨h1, h2, h3, h4⟩
          · exact abMaxGo_spec child pchild alpha0 beta hchild h0 hab l _ _ _
              (Or.inr ⟨by rcases hq3 with h | h <;> rcases hn3 with h' | h' <;> omega,
                       by rcases hm3 with h' | h' <;> rcases hn3 with h'' | h'' <;> omega,
                       by rcases hn3 with h' | h' <;> omega,
                       by rcases hn3 with h' | h' <;> omega⟩)
          · exact abMaxGo_spec child pchild alpha0 beta hchild h0 hab l _ _ _
              (Or.inr ⟨by rcases hq3 with h | h <;> rcases hn3 with h' | h' <;> omega,
                       by rcases hm3 with h' | h' <;> rcases hn3 with h'' | h'' <;> omega,
                       by rcases hn3 with h' | h' <;> omega,
                       by rcases hn3 with h' | h' <;> omega⟩)

/-- The minimizing alpha-beta loop satisfies the fail-soft contract. -/
theorem abMinGo_spec (child : Move → Int → Int → Int) (pchild : Move → Int)
    (alpha beta0 : Int)
    (hchild : ∀ (m : Move) (b2 : Int), alpha < b2 → b2 ≤ 2147483647 →
        abspec (pchild m) (child m alpha b2) alpha b2)
    (h0 : beta0 ≤ 2147483647) (hab : alpha < beta0) :
    ∀ (l : List Move) (beta best pbest : Int),
    ((best ≤ pbest ∧ beta0 ≤ best ∧ beta = beta0) ∨
     (pbest = best ∧ beta = best ∧ alpha < best ∧ best < beta0)) →
    abspec (plainMinGo pchild l pbest) (abMinGo child alpha l beta best) alpha beta0
  | [], beta, best, pbest, hinv => by
      simp only [plainMinGo, abMinGo]
      rcases hinv with ⟨h1, h2, h3⟩ | ⟨h1, h2, h3, h4⟩ <;>
        exact ⟨fun _ => by omega, fun ha hb => by omega, fun hc => by omega⟩
  | m :: l, beta, best, pbest, hinv => by
      have hwb : beta ≤ 2147483647 := by
        rcases hinv with ⟨h1, h2, h3⟩ | ⟨h1, h2, h3, h4⟩ <;> omega
      have hwab : alpha < beta := by
        rcases hinv with ⟨h1, h2, h3⟩ | ⟨h1, h2, h3, h4⟩ <;> omega
      obtain ⟨hc1, hc2, hc3⟩ := hchild m beta hwab hwb
      simp only [plainMinGo, abMinGo]
      have hm1 := min_le_left beta (child m alpha beta)
      have hm2 := min_le_right beta (child m alpha beta)
      have hm3 := min_choice beta (child m alpha beta)
      have hn1 := min_le_left best (child m alpha beta)
      have hn2 := min_le_right best (child m alpha beta)
      have hn3 := min_choice best (child m alpha beta)
      have hq1 := min_le_left pbest (pchild m)
      have hq2 := min_le_right pbest (pchild m)
      have hq3 := min_choice pbest (pchild m)
      split
      · next hcut =>
        -- alpha-cutoff: the child failed low, so its plain value is at
        -- most `e` and the returned min is a sound upper bound.
        have healpha : child m alpha beta ≤ alpha := by
          rcases hm3 with h | h <;> omega
        have hep : pchild m ≤ child m alpha beta := hc1 healpha
        have hle := plainMinGo_le pchild l (min pbest (pchild m))
        rcases hinv with ⟨h1, h2, h3⟩ | ⟨h1, h2, h3, h4⟩ <;>
          rcases hn3 with hn | hn <;>
            exact ⟨fun ha => by omega, fun ha hb => by omega, fun hc => by omega⟩
      · next hcut =>
        rw [not_le] at hcut
        rcases le_or_lt beta (child m alpha beta) with hea | hea
        · -- the child failed high (or tied beta): the phase is preserved
          have hpe : child m alpha beta ≤ pchild m := hc3 hea
          rcases hinv with ⟨h1, h2, h3⟩ | ⟨h1, h2, h3, h4⟩
          · exact abMinGo_spec child pchild alpha beta0 hchild h0 hab l _ _ _
              (Or.inl ⟨by rcases hq3 with h | h <;> rcases hn3 with h' | h' <;> omega,
                       by rcases hn3 with h' | h' <;> omega,
                       by rcases hm3 with h' | h' <;> omega⟩)
          · exact abMinGo_spec child pchild alpha beta0 hchild h0 hab l _ _ _
              (Or.inr ⟨by rcases hq3 with h | h <;> rcases hn3 with h' | h' <;> omega,
                       by rcases hm3 with h' | h' <;> rcases hn3 with h'' | h'' <;> omega,
                       by rcases hn3 with h' | h' <;> omega,
                       by rcases hn3 with h' | h' <;> omega⟩)
        · -- the child landed inside the window: value exact, phase B
          have hpe : child m alpha beta = pchild m := hc2 (by omega) hea
          rcases hinv with ⟨h1, h2, h3⟩ | ⟨h1, h2, h3, h4⟩
          · exact abMinGo_spec child pchild alpha beta0 hchild h0 hab l _ _ _
              (Or.inr ⟨by rcases hq3 with h | h <;> rcases hn3 with h' | h' <;> omega,
                       by rcases hm3 with h' | h' <;> rcases hn3 with h'' | h'' <;> omega,
                       by rcases hn3 with h' | h' <;> omega,
                       by rcases hn3 with h' | h' <;> omega⟩)
          · exact abMinGo_spec child pchild alpha beta0 hchild h0 hab l _ _ _
              (Or.inr ⟨by rcases hq3 with h | h <;> rcases hn3 with h' | h' <;> omega,
                       by rcases hm3 with h' | h' <;> rcases hn3 with h'' | h'' <;> omega,
                       by rcases hn3 with h' | h' <;> omega,
                       by rcases hn3 with h' | h' <;> omega⟩)

/-- Depth-wise equivalence: with matching windows, alpha-beta `minimax`
    satisfies the fail-soft contract against the unpruned `minimaxPlain`,
    for ANY reordering of the generated moves that is a permutation. -/
theorem minimax_abspec (reorder : Board → List Move → List Move) (maxD : Int)
    (ai : Color) (hperm : ∀ (bb : Board) (l : List Move), (reorder bb l).Perm l) :
    ∀ (depth : Nat) (b : Board) (turn : Color) (alpha beta : Int) (mx : Bool),
      -2147483648 ≤ alpha → alpha < beta → beta ≤ 2147483647 →
      abspec (minimaxPlain maxD ai depth b turn mx)
             (minimax reorder maxD ai depth b turn alpha beta mx) alpha beta
  | 0, b, turn, alpha, beta, mx, ha, hab, hb => by
      apply abspec_of_eq
      simp only [minimax, minimaxPlain]
  | d + 1, b, turn, alpha, beta, mx, ha, hab, hb => by
      simp only [minimax, minimaxPlain]
      by_cases hemp : (generateMoves b turn).isEmpty = true
      · rw [if_pos hemp, if_pos hemp]
        exact abspec_of_eq rfl
      · rw [if_neg hemp, if_neg hemp]
        cases mx
        · rw [plainMinGo_perm _ (hperm b (generateMoves b turn)).symm]
          exact abMinGo_spec _ _ alpha beta
            (fun m b2 h1 h2 =>
              minimax_abspec reorder maxD ai hperm d (simulateMove b m turn).2
                (opponentOf turn) alpha b2 true ha h1 h2)
            hb hab (reorder b (generateMoves b turn)) beta 2147483647 2147483647
            (Or.inl ⟨le_refl _, hb, rfl⟩)
        · rw [plainMaxGo_perm _ (hperm b (generateMoves b turn)).symm]
          exact abMaxGo_spec _ _ alpha beta
            (fun m a2 h1 h2 =>
              minimax_abspec reorder maxD ai hperm d (simulateMove b m turn).2
                (opponentOf turn) a2 beta false h1 h2 hb)
            ha hab (reorder b (generateMoves b turn)) alpha (-2147483648) (-2147483648)
            (Or.inl ⟨le_refl _, ha, rfl⟩)

theorem getD_int_bound {lo hi : Int} (l : List Int) (d : Int) (n : Nat)
    (h : ∀ x ∈ l, lo ≤ x ∧ x ≤ hi) (hd : lo ≤ d ∧ d ≤ hi) :
    lo ≤ l.getD n d ∧ l.getD n d ≤ hi := by
  rcases Nat.lt_or_ge n l.length with hn | hn
  · rw [List.getD_eq_getElem l d hn]
    exact h _ (List.getElem_mem hn)
  · rw [List.getD_eq_default l d hn]
    exact hd

theorem tableAt_bound (t : List (List Int))
    (h : ∀ row ∈ t, ∀ x ∈ row, -50 ≤ x ∧ x ≤ 50) (r c : Int) :
    -50 ≤ tableAt t r c ∧ tableAt t r c ≤ 50 := by
  unfold tableAt
  rcases Nat.lt_or_ge r.toNat t.length with hn | hn
  · rw [List.getD_eq_getElem t [] hn]
    exact getD_int_bound _ _ _ (h _ (List.getElem_mem hn)) (by norm_num)
  · rw [List.getD_eq_default t [] hn]
    simp [List.getD]

/-- Every piece-square-table bonus lies in [-50, 50]. -/
theorem getPositionBonus_bound (pos : Position) (t : PieceType) (c : Color) :
    -50 ≤ getPositionBonus pos t c ∧ getPositionBonus pos t c ≤ 50 := by
  cases t <;> simp only [getPositionBonus] <;>
    first
      | exact tableAt_bound _ (by decide) _ _
      | exact ⟨by norm_num, by norm_num⟩

theorem getPieceValue_bound (t : PieceType) :
    0 ≤ getPieceValue t ∧ getPieceValue t ≤ 20000 := by
  cases t <;> exact ⟨by decide, by decide⟩

theorem foldl_step_bound (f : Int → Position → Int)
    (hf : ∀ (acc : Int) (sq : Position),
      acc - 20050 ≤ f acc sq ∧ f acc sq ≤ acc + 20050) :
    ∀ (l : List Position) (acc : Int),
      acc - 20050 * (l.length : Int) ≤ List.foldl f acc l ∧
      List.foldl f acc l ≤ acc + 20050 * (l.length : Int)
  | [], acc => by simp
  | sq :: rest, acc => by
      have h1 := hf acc sq
      have h2 := foldl_step_bound f hf rest (f acc sq)
      simp only [List.foldl_cons, List.length_cons] at h2 ⊢
      push_cast at h2 ⊢
      constructor <;> omega

/-- The static evaluation is bounded by 64 squares times the largest
    possible per-square contribution (king value 20000 plus bonus 50). -/
theorem evaluateBoard_bound (b : Board) (ai : Color) :
    -1283200 ≤ evaluateBoard b ai ∧ evaluateBoard b ai ≤ 1283200 := by
  have hstep : ∀ (score : Int) (sq : Position),
      score - 20050 ≤
        (fun (score : Int) (sq : Position) =>
          let piece := getPiece b sq
          if piece.isEmpty then score
          else
            let value := getPieceValue piece.type
            let bonus := getPositionBonus sq piece.type piece.color
            if piece.color = ai then score + (value + bonus)
            else score - (value + bonus)) score sq ∧
      (fun (score : Int) (sq : Position) =>
        let piece := getPiece b sq
        if piece.isEmpty then score
        else
          let value := getPieceValue piece.type
          let bonus := getPositionBonus sq piece.type piece.color
          if piece.color = ai then score + (value + bonus)
          else score - (value + bonus)) score sq ≤ score + 20050 := by
    intro score sq
    have hv := getPieceValue_bound (getPiece b sq).type
    have hbo := getPositionBonus_bound sq (getPiece b sq).type (getPiece b sq).color
    dsimp only
    split_ifs <;> constructor <;> omega
  have h := foldl_step_bound _ hstep scanSquares 0
  have hlen : ((scanSquares.length : Nat) : Int) = 64 := by decide
  rw [hlen] at h
  exact ⟨le_trans (by norm_num) h.1, le_trans h.2 (by norm_num)⟩

theorem plainMaxGo_bound (child : Move → Int) (C : Int) :
    ∀ (l : List Move) (acc : Int), (∀ m ∈ l, -C ≤ child m ∧ child m ≤ C) →
      acc ≤ C → l ≠ [] →
      -C ≤ plainMaxGo child l acc ∧ plainMaxGo child l acc ≤ C
  | [], _, _, _, hne => absurd rfl hne
  | m :: rest, acc, h, hacc, _ => by
      have hm := h m (List.mem_cons_self m rest)
      have h1 := le_max_left acc (child m)
      have h2 := le_max_right acc (child m)
      have h3 := max_choice acc (child m)
      cases rest with
      | nil => simp only [plainMaxGo]; rcases h3 with h4 | h4 <;> omega
      | cons m2 rest2 =>
          have hrec := plainMaxGo_bound child C (m2 :: rest2) (max acc (child m))
            (fun x hx => h x (List.mem_cons_of_mem m hx))
            (by rcases h3 with h4 | h4 <;> omega) (by simp)
          simpa only [plainMaxGo] using hrec

theorem plainMinGo_bound (child : Move → Int) (C : Int) :
    ∀ (l : List Move) (acc : Int), (∀ m ∈ l, -C ≤ child m ∧ child m ≤ C) →
      -C ≤ acc → l ≠ [] →
      -C ≤ plainMinGo child l acc ∧ plainMinGo child l acc ≤ C
  | [], _, _, _, hne => absurd rfl hne
  | m :: rest, acc, h, hacc, _ => by
      have hm := h m (List.mem_cons_self m rest)
      have h1 := min_le_left acc (child m)
      have h2 := min_le_right acc (child m)
      have h3 := min_choice acc (child m)
      cases rest with
      | nil => simp only [plainMinGo]; rcases h3 with h4 | h4 <;> omega
      | cons m2 rest2 =>
          have hrec := plainMinGo_bound child C (m2 :: rest2) (min acc (child m))
            (fun x hx => h x (List.mem_cons_of_mem m hx))
            (by rcases h3 with h4 | h4 <;> omega) (by simp)
          simpa only [plainMinGo] using hrec

/-- The unpruned minimax value is bounded well inside the `int` window:
    static evaluations stay within 1283200 and mate scores within
    100000 + maxD + depth. -/
theorem minimaxPlain_bound (maxD : Int) (ai : Color) (hmd : 0 ≤ maxD) :
    ∀ (depth : Nat) (b : Board) (turn : Color) (mx : Bool),
      -(1383200 + maxD + (depth : Int)) ≤ minimaxPlain maxD ai depth b turn mx ∧
      minimaxPlain maxD ai depth b turn mx ≤ 1383200 + maxD + (depth : Int)
  | 0, b, turn, mx => by
      simp only [minimaxPlain]
      by_cases hemp : (generateMoves b turn).isEmpty = true
      · rw [if_pos hemp]
        split_ifs <;> constructor <;> push_cast <;> omega
      · rw [if_neg hemp]
        have h := evaluateBoard_bound b ai
        constructor <;> push_cast <;> omega
  | d + 1, b, turn, mx => by
      simp only [minimaxPlain]
      by_cases hemp : (generateMoves b turn).isEmpty = true
      · rw [if_pos hemp]
        split_ifs <;> constructor <;> push_cast <;> omega
      · rw [if_neg hemp]
        have hne : generateMoves b turn ≠ [] := by
          intro hh
          rw [hh] at hemp
          exact hemp rfl
        cases mx
        · rw [if_neg (by decide)]
          have hb := plainMinGo_bound
            (fun m => minimaxPlain maxD ai d (simulateMove b m turn).2 (opponentOf turn) true)
            (1383200 + maxD + (d : Int)) (generateMoves b turn) 2147483647
            (fun m _ => minimaxPlain_bound maxD ai hmd d (simulateMove b m turn).2
              (opponentOf turn) true)
            (by omega) hne
          constructor <;> push_cast <;> omega
        · rw [if_pos rfl]
          have hb := plainMaxGo_bound
            (fun m => minimaxPlain maxD ai d (simulateMove b m turn).2 (opponentOf turn) false)
            (1383200 + maxD + (d : Int)) (generateMoves b turn) (-2147483648)
            (fun m _ => minimaxPlain_bound maxD ai hmd d (simulateMove b m turn).2
              (opponentOf turn) false)
            (by omega) hne
          constructor <;> push_cast <;> omega

/-- C6: for every board, side to move, and search depth, the alpha-beta
    minimax invoked with the full (-2147483648, 2147483647) window returns
    exactly the same value as the unpruned minimax of the same depth on the
    same position; the hypothesis on `reorder` says only that the
    captures/promotions-first sort is SOME permutation of the move list, so
    the move ordering changes which subtrees are pruned but never the
    returned value.  (The bounds on `maxD` and `depth` keep the scores
    strictly inside the `int` window; the code's depths are at most 4.) -/
theorem C6_alphabeta_equals_unpruned_minimax
    (reorder : Board → List Move → List Move) (maxD : Int) (ai : Color)
    (depth : Nat) (b : Board) (turn : Color) (mx : Bool)
    (hperm : ∀ (bb : Board) (l : List Move), (reorder bb l).Perm l)
    (hmd0 : 0 ≤ maxD) (hmd : maxD ≤ 1000000) (hd : (depth : Int) ≤ 1000000) :
    minimax reorder maxD ai depth b turn (-2147483648) 2147483647 mx =
      minimaxPlain maxD ai depth b turn mx := by
  obtain ⟨c1, c2, c3⟩ := minimax_abspec reorder maxD ai hperm depth b turn
    (-2147483648) 2147483647 mx (le_refl _) (by omega) (le_refl _)
  obtain ⟨b1, b2⟩ := minimaxPlain_bound maxD ai hmd0 depth b turn mx
  by_cases h1 : minimax reorder maxD ai depth b turn (-2147483648) 2147483647 mx ≤
      -2147483648
  · have := c1 h1
    omega
  · by_cases h2 : (2147483647 : Int) ≤
        minimax reorder maxD ai depth b turn (-2147483648) 2147483647 mx
    · have := c3 h2
      omega
    · exact c2 (by omega) (by omega)

/-- Witness for C6: the identity reordering is a permutation, and at depth
    1 on the king-rook-king board both searches agree. -/
theorem C6_alphabeta_equals_unpruned_minimax_witness :
    minimax (fun _ l => l) 2 Color.White 1 boardKRK Color.White
        (-2147483648) 2147483647 true =
      minimaxPlain 2 Color.White 1 boardKRK Color.White true :=
  C6_alphabeta_equals_unpruned_minimax (fun _ l => l) 2 Color.White 1 boardKRK
    Color.White true (fun _ _ => List.Perm.refl _) (by decide) (by decide) (by decide)

end AIPlayer



/-! ### C2: legal moves and king safety -/

namespace Board

theorem getPiece_disableCastling (b : Board) (c : Color) (k : Bool) (p : Position) :
    getPiece (disableCastling b c k) p = getPiece b p := by
  unfold disableCastling
  split_ifs <;> rfl

theorem getPiece_clearEnPassantTarget (b : Board) (p : Position) :
    getPiece (clearEnPassantTarget b) p = getPiece b p := rfl

theorem getPiece_setEnPassantTarget (b : Board) (q : Position) (p : Position) :
    getPiece (setEnPassantTarget b q) p = getPiece b p := rfl

/-- The number of kings of a color among the 64 scanned squares. -/
def kingCount (b : Board) (c : Color) : Nat :=
  (scanSquares.filter fun p =>
    decide ((getPiece b p).type = PieceType.King ∧ (getPiece b p).color = c)).length

theorem scanSquares_nodup : scanSquares.Nodup := by decide

theorem two_le_length_of_mem_nodup {l : List Position} (hn : l.Nodup)
    {p q : Position} (hp : p ∈ l) (hq : q ∈ l) (hne : p ≠ q) : 2 ≤ l.length := by
  match l, hn, hp, hq with
  | [], _, hp, _ => cases hp
  | [a], _, hp, hq =>
      rw [List.mem_singleton] at hp hq
      exact absurd (hp.trans hq.symm) hne
  | a :: b2 :: l2, _, _, _ => simp only [List.length_cons]; omega

/-- With at most one king of a color on the board, any two valid squares
    holding a king of that color coincide. -/
theorem king_unique_of_count {b : Board} {c : Color} (hone : kingCount b c ≤ 1)
    {p q : Position} (hp : p.isValid = true) (hq : q.isValid = true)
    (hkp : (getPiece b p).type = PieceType.King) (hcp : (getPiece b p).color = c)
    (hkq : (getPiece b q).type = PieceType.King) (hcq : (getPiece b q).color = c) :
    p = q := by
  by_contra hne
  have hpf : p ∈ scanSquares.filter fun r =>
      decide ((getPiece b r).type = PieceType.King ∧ (getPiece b r).color = c) :=
    List.mem_filter.mpr ⟨(mem_scanSquares p).mpr hp, by simp [hkp, hcp]⟩
  have hqf : q ∈ scanSquares.filter fun r =>
      decide ((getPiece b r).type = PieceType.King ∧ (getPiece b r).color = c) :=
    List.mem_filter.mpr ⟨(mem_scanSquares q).mpr hq, by simp [hkq, hcq]⟩
  have h2 := two_le_length_of_mem_nodup (scanSquares_nodup.filter _) hpf hqf hne
  unfold kingCount at hone
  omega

theorem findKing_eq_of_pred_iff {b1 b2 : Board} (c : Color)
    (h : ∀ p, ((getPiece b1 p).type = PieceType.King ∧ (getPiece b1 p).color = c) ↔
              ((getPiece b2 p).type = PieceType.King ∧ (getPiece b2 p).color = c)) :
    findKing b1 c = findKing b2 c := by
  unfold findKing
  rw [show (fun p => decide ((getPiece b1 p).type = PieceType.King ∧
        (getPiece b1 p).color = c)) =
      (fun p => decide ((getPiece b2 p).type = PieceType.King ∧
        (getPiece b2 p).color = c)) from
      funext fun p => decide_eq_decide.mpr (h p)]

end Board

theorem kingCount_congr {b1 b2 : Board} (h : pieceShapeEq b1 b2) (c : Color) :
    Board.kingCount b1 c = Board.kingCount b2 c := by
  unfold Board.kingCount
  rw [show (fun p => decide ((Board.getPiece b1 p).type = PieceType.King ∧
        (Board.getPiece b1 p).color = c)) =
      (fun p => decide ((Board.getPiece b2 p).type = PieceType.King ∧
        (Board.getPiece b2 p).color = c)) from
      funext fun p => by rw [(h p).1, (h p).2]]

theorem shape_disableCastling {b B : Board} (c : Color) (k : Bool)
    (h : pieceShapeEq b B) : pieceShapeEq (Board.disableCastling b c k) B :=
  pieceShapeEq_trans
    (fun p => by rw [Board.getPiece_disableCastling]; exact ⟨rfl, rfl⟩) h

theorem shape_clearEnPassantTarget {b B : Board}
    (h : pieceShapeEq b B) : pieceShapeEq (Board.clearEnPassantTarget b) B :=
  pieceShapeEq_trans (fun _ => ⟨rfl, rfl⟩) h

theorem shape_setEnPassantTarget {b B : Board} (q : Position)
    (h : pieceShapeEq b B) : pieceShapeEq (Board.setEnPassantTarget b q) B :=
  pieceShapeEq_trans (fun _ => ⟨rfl, rfl⟩) h

theorem self_ne_opponentOf (c : Color) : c ≠ opponentOf c := by
  cases c <;> decide

theorem opponentOf_ne_none (c : Color) : opponentOf c ≠ Color.None := by
  cases c <;> decide

namespace ChessLogic

open Board

theorem simBoardOf_congr {b1 b2 : Board} (h : pieceShapeEq b1 b2) (m : Move) :
    pieceShapeEq (simBoardOf b1 m) (simBoardOf b2 m) := by
  unfold simBoardOf
  dsimp only
  split
  · exact movePiece_congr (removePiece_congr h _) _ _
  · exact movePiece_congr h _ _

/-- The Boolean result of `wouldBeInCheck` is the attack test on the
    simulated board, aimed at its king of the moving piece's color. -/
theorem wouldBeInCheck_fst (b : Board) (m : Move) :
    (wouldBeInCheck b m).1 =
      isAttacked (simBoardOf b m)
        (findKing (simBoardOf b m) (getPiece b m.from_).color)
        (opponentOf (getPiece b m.from_).color) := rfl

theorem wouldBeInCheck_fst_congr {b1 b2 : Board} (h : pieceShapeEq b1 b2) (m : Move) :
    (wouldBeInCheck b1 m).1 = (wouldBeInCheck b2 m).1 := by
  rw [wouldBeInCheck_fst, wouldBeInCheck_fst, (h m.from_).2,
    findKing_congr (simBoardOf_congr h m), isAttacked_congr (simBoardOf_congr h m)]

/-- Only the pawn generator emits promotions. -/
theorem pseudo_promo {b : Board} {pos : Position} {m : Move}
    (hm : m ∈ getPseudoLegalMoves b pos) (hp : m.promotion ≠ PieceType.None) :
    (getPiece b pos).type = PieceType.Pawn := by
  unfold getPseudoLegalMoves at hm
  split at hm
  · next h => exact h
  · next h => exact absurd (getKnightMoves_mem hm).2.2.1 hp
  · next h => exact absurd (getSlidingMoves_mem hm).2.2.1 hp
  · next h => exact absurd (getSlidingMoves_mem hm).2.2.1 hp
  · next h => exact absurd (getSlidingMoves_mem hm).2.2.1 hp
  · next h => exact absurd (getKingMoves_mem h hm).2.2.1 hp
  · simp at hm

end ChessLogic


namespace ChessLogic

open Board

/-- For a non-castling, non-promoting move, `makeMove`'s board mutations
    produce exactly the simulated board up to hasMoved-free observation
    (the extra operations only touch the en-passant target and the
    castling rights). -/
theorem makeMoveBoard_shape_plain (b : Board) (m : Move)
    (hcast : m.isCastling = false) (hpromo : m.promotion = PieceType.None) :
    pieceShapeEq (makeMoveBoard b m) (simBoardOf b m) := by
  unfold makeMoveBoard simBoardOf
  dsimp only
  simp only [hcast, Bool.false_eq_true, if_false, hpromo, ne_eq,
    not_true_eq_false, if_false]
  split_ifs <;>
    (repeat'
      first
        | exact pieceShapeEq_refl _
        | apply shape_disableCastling
        | apply shape_clearEnPassantTarget
        | apply shape_setEnPassantTarget)

/-- For a promoting move, `makeMove`'s board mutations produce the
    simulated board with the promoted piece written over the destination. -/
theorem makeMoveBoard_shape_promo (b : Board) (m : Move)
    (hcast : m.isCastling = false) (hpromo : m.promotion ≠ PieceType.None) :
    pieceShapeEq (makeMoveBoard b m)
      (setPiece (simBoardOf b m) m.to_
        ((Piece.mk2 m.promotion (getPiece b m.from_).color).setMoved true)) := by
  unfold makeMoveBoard simBoardOf
  dsimp only
  simp only [hcast, Bool.false_eq_true, if_false, ne_eq, hpromo,
    not_false_eq_true, if_true]
  split_ifs <;>
    (repeat'
      first
        | exact pieceShapeEq_refl _
        | apply shape_disableCastling
        | apply shape_clearEnPassantTarget
        | apply shape_setEnPassantTarget)

/-- For a castling move, `makeMove`'s board mutations produce the simulated
    board (king already relocated) with the rook moved to its castled
    square. -/
theorem makeMoveBoard_shape_castle (b : Board) (m : Move)
    (hcast : m.isCastling = true) :
    pieceShapeEq (makeMoveBoard b m)
      (movePiece (simBoardOf b m)
        ⟨m.from_.row, if m.to_.col > m.from_.col then 7 else 0⟩
        ⟨m.from_.row, if m.to_.col > m.from_.col then 5 else 3⟩) := by
  unfold makeMoveBoard simBoardOf
  dsimp only
  simp only [hcast, if_true]
  split_ifs <;>
    (repeat'
      first
        | exact pieceShapeEq_refl _
        | apply shape_disableCastling
        | apply shape_clearEnPassantTarget
        | apply shape_setEnPassantTarget)

end ChessLogic


namespace ChessLogic

open Board

theorem pathClear_of_setPiece_nonempty {b : Board} {q : Position} {x : Piece}
    (hx : x.isEmpty = false) {att : Position} {rs cs : Int} {steps : Nat}
    (h : pathClear (setPiece b q x) att rs cs steps = true) :
    pathClear b att rs cs steps = true := by
  unfold pathClear at h ⊢
  rw [List.all_eq_true] at h ⊢
  intro i hi
  have hh := h i hi
  rw [getPiece_setPiece] at hh
  split at hh
  · rw [hx] at hh
    cases hh
  · exact hh

theorem pathClear_of_setPiece_avoid {b : Board} {q : Position} {x : Piece}
    {att : Position} {rs cs : Int} {steps : Nat}
    (havoid : ∀ i ∈ List.range' 1 (steps - 1),
      (⟨att.row + (i : Int) * rs, att.col + (i : Int) * cs⟩ : Position) ≠ q)
    (h : pathClear (setPiece b q x) att rs cs steps = true) :
    pathClear b att rs cs steps = true := by
  unfold pathClear at h ⊢
  rw [List.all_eq_true] at h ⊢
  intro i hi
  have hh := h i hi
  rw [getPiece_setPiece] at hh
  rw [if_neg (fun hc => havoid i hi hc.1)] at hh
  exact hh

/-- Putting a NONEMPTY piece on a square cannot create a new attack by an
    attacker sitting elsewhere: occupied squares only block paths. -/
theorem attackFrom_of_setPiece_nonempty {b : Board} {q : Position} {x : Piece}
    (hx : x.isEmpty = false) {c : Color} {att t : Position}
    (hneq : att ≠ q)
    (h : attackFrom (setPiece b q x) c att t = true) :
    attackFrom b c att t = true := by
  have hap : getPiece (setPiece b q x) att = getPiece b att := by
    rw [getPiece_setPiece, if_neg (fun hc => hneq hc.1)]
  unfold attackFrom at h ⊢
  rw [hap] at h
  dsimp only at h ⊢
  cases htype : (getPiece b att).type <;> simp only [htype] at h ⊢
  case Pawn => exact h
  case Knight => exact h
  case King => exact h
  case None => exact h
  all_goals
    split at h
    case isFalse => cases h
    case isTrue hcond =>
      rw [if_pos hcond]
      exact pathClear_of_setPiece_nonempty hx h

/-- Emptying a FILE-EDGE square (column 0 or 7) cannot create a new attack
    on a target strictly inside that edge: a sliding path through the edge
    square towards the target would need an attacker outside the board. -/
theorem attackFrom_of_remove_corner {b : Board} {q : Position} {c : Color}
    {att t : Position} (hattv : att.isValid = true) (hneq : att ≠ q)
    (hcorner : (q.col = 7 ∧ t.col < 7) ∨ (q.col = 0 ∧ 0 < t.col))
    (h : attackFrom (setPiece b q Piece.empty) c att t = true) :
    attackFrom b c att t = true := by
  have hap : getPiece (setPiece b q Piece.empty) att = getPiece b att := by
    rw [getPiece_setPiece, if_neg (fun hc => hneq hc.1)]
  have hv := (Position.isValid_iff att).mp hattv
  unfold attackFrom at h ⊢
  rw [hap] at h
  dsimp only at h ⊢
  cases htype : (getPiece b att).type <;> simp only [htype] at h ⊢
  case Pawn => exact h
  case Knight => exact h
  case King => exact h
  case None => exact h
  case Bishop =>
    split at h
    case isFalse => cases h
    case isTrue hcond =>
      rw [if_pos hcond]
      refine pathClear_of_setPiece_avoid ?_ h
      intro i hi heq
      rw [List.mem_range'_1] at hi
      have hcol := congrArg Position.col heq
      dsimp only at hcol
      by_cases hsign : t.col - att.col > 0
      · rw [if_pos hsign] at hcol
        rcases hcorner with ⟨h7, ht⟩ | ⟨h0, ht⟩ <;> omega
      · rw [if_neg hsign] at hcol
        rcases hcorner with ⟨h7, ht⟩ | ⟨h0, ht⟩ <;> omega
  case Rook =>
    split at h
    case isFalse => cases h
    case isTrue hcond =>
      rw [if_pos hcond]
      refine pathClear_of_setPiece_avoid ?_ h
      intro i hi heq
      rw [List.mem_range'_1] at hi
      have hcol := congrArg Position.col heq
      dsimp only at hcol
      by_cases hcd : t.col - att.col = 0
      · rw [if_pos hcd] at hcol
        rcases hcorner with ⟨h7, ht⟩ | ⟨h0, ht⟩ <;> omega
      · rw [if_neg hcd] at hcol
        have hrd : t.row - att.row = 0 := by
          rcases hcond.1 with hzz | hzz
          · exact hzz
          · exact absurd hzz hcd
        by_cases hsign : t.col - att.col > 0
        · rw [if_pos hsign] at hcol
          rcases hcorner with ⟨h7, ht⟩ | ⟨h0, ht⟩ <;> omega
        · rw [if_neg hsign] at hcol
          rcases hcorner with ⟨h7, ht⟩ | ⟨h0, ht⟩ <;> omega
  case Queen =>
    split at h
    case isFalse => cases h
    case isTrue hcond =>
      rw [if_pos hcond]
      refine pathClear_of_setPiece_avoid ?_ h
      intro i hi heq
      rw [List.mem_range'_1] at hi
      have hcol := congrArg Position.col heq
      dsimp only at hcol
      by_cases hcd : t.col - att.col = 0
      · rw [if_pos hcd] at hcol
        rcases hcorner with ⟨h7, ht⟩ | ⟨h0, ht⟩ <;> omega
      · rw [if_neg hcd] at hcol
        have hrel : max (t.row - att.row).natAbs (t.col - att.col).natAbs =
            (t.col - att.col).natAbs := by
          rcases hcond with ⟨he, _⟩ | ⟨hor, _⟩
          · omega
          · rcases hor with hzz | hzz
            · omega
            · exact absurd hzz hcd
        by_cases hsign : t.col - att.col > 0
        · rw [if_pos hsign] at hcol
          rcases hcorner with ⟨h7, ht⟩ | ⟨h0, ht⟩ <;> omega
        · rw [if_neg hsign] at hcol
          rcases hcorner with ⟨h7, ht⟩ | ⟨h0, ht⟩ <;> omega

/-- Lifting to the whole attack scan: removing the piece on a file-edge
    square cannot make an inner target attacked. -/
theorem isAttacked_of_remove_corner {b : Board} {q t : Position} {c : Color}
    (hc : c ≠ Color.None)
    (hcorner : (q.col = 7 ∧ t.col < 7) ∨ (q.col = 0 ∧ 0 < t.col))
    (h : isAttacked (setPiece b q Piece.empty) t c = true) :
    isAttacked b t c = true := by
  unfold isAttacked at h ⊢
  rw [List.any_eq_true] at h ⊢
  obtain ⟨att, hmem, hatk⟩ := h
  rw [mem_findPieces] at hmem
  obtain ⟨hattv, hcolor⟩ := hmem
  have hneq : att ≠ q := by
    intro hcontra
    rw [getPiece_setPiece, if_pos ⟨hcontra, hattv⟩] at hcolor
    exact hc hcolor.symm
  refine ⟨att, ?_, attackFrom_of_remove_corner hattv hneq hcorner hatk⟩
  rw [mem_findPieces]
  refine ⟨hattv, ?_⟩
  rw [getPiece_setPiece, if_neg (fun hcontra => hneq hcontra.1)] at hcolor
  exact hcolor

/-- Lifting to the whole attack scan: adding a nonempty piece that is not
    of the attacking color cannot make a target attacked. -/
theorem isAttacked_of_add_offcolor {b : Board} {q t : Position} {c : Color}
    {x : Piece} (hx : x.isEmpty = false) (hxc : x.color ≠ c)
    (h : isAttacked (setPiece b q x) t c = true) :
    isAttacked b t c = true := by
  unfold isAttacked at h ⊢
  rw [List.any_eq_true] at h ⊢
  obtain ⟨att, hmem, hatk⟩ := h
  rw [mem_findPieces] at hmem
  obtain ⟨hattv, hcolor⟩ := hmem
  have hneq : att ≠ q := by
    intro hcontra
    rw [getPiece_setPiece, if_pos ⟨hcontra, hattv⟩] at hcolor
    exact hxc hcolor
  refine ⟨att, ?_, attackFrom_of_setPiece_nonempty hx hneq hatk⟩
  rw [mem_findPieces]
  refine ⟨hattv, ?_⟩
  rw [getPiece_setPiece, if_neg (fun hcontra => hneq hcontra.1)] at hcolor
  exact hcolor


end ChessLogic

theorem disableCastling_congr {b1 b2 : Board} (h : pieceShapeEq b1 b2)
    (c : Color) (k : Bool) :
    pieceShapeEq (Board.disableCastling b1 c k) (Board.disableCastling b2 c k) :=
  fun p => by
    rw [Board.getPiece_disableCastling, Board.getPiece_disableCastling]
    exact h p

theorem clearEnPassantTarget_congr {b1 b2 : Board} (h : pieceShapeEq b1 b2) :
    pieceShapeEq (Board.clearEnPassantTarget b1) (Board.clearEnPassantTarget b2) :=
  fun p => h p

theorem setEnPassantTarget_congr {b1 b2 : Board} (h : pieceShapeEq b1 b2)
    (q : Position) :
    pieceShapeEq (Board.setEnPassantTarget b1 q) (Board.setEnPassantTarget b2 q) :=
  fun p => h p

namespace ChessLogic

open Board

theorem makeMoveBoard_congr {b1 b2 : Board} (h : pieceShapeEq b1 b2) (m : Move) :
    pieceShapeEq (makeMoveBoard b1 m) (makeMoveBoard b2 m) := by
  cases hcast : m.isCastling
  case false =>
    by_cases hpromo : m.promotion = PieceType.None
    · exact pieceShapeEq_trans (makeMoveBoard_shape_plain b1 m hcast hpromo)
        (pieceShapeEq_trans (simBoardOf_congr h m)
          (pieceShapeEq_symm (makeMoveBoard_shape_plain b2 m hcast hpromo)))
    · refine pieceShapeEq_trans (makeMoveBoard_shape_promo b1 m hcast hpromo)
        (pieceShapeEq_trans ?_
          (pieceShapeEq_symm (makeMoveBoard_shape_promo b2 m hcast hpromo)))
      rw [(h m.from_).2]
      exact setPiece_congr (simBoardOf_congr h m) _ _
  case true =>
    exact pieceShapeEq_trans (makeMoveBoard_shape_castle b1 m hcast)
      (pieceShapeEq_trans (movePiece_congr (simBoardOf_congr h m) _ _)
        (pieceShapeEq_symm (makeMoveBoard_shape_castle b2 m hcast)))

end ChessLogic


namespace ChessLogic

open Board

/-- The core of C2: any move that survives `wouldBeInCheck` on the queried
    board leaves the mover without a king in check after `makeMove`'s board
    mutations (given at most one king of the moving color on the board). -/
theorem legal_move_keeps_king_safe (b : Board) (turn : Color) (pos : Position)
    (m : Move) (hone : kingCount b turn ≤ 1)
    (hm : m ∈ (getLegalMoves b turn pos).1) :
    isInCheck (makeMoveBoard b m) turn = false := by
  obtain ⟨hne, hcolor, hpseudo, b0, hb0, hwbc0⟩ := mem_getLegalMoves hm
  obtain ⟨hfrom, hto, hpromoK, hepgeo, hcastle⟩ := pseudo_basics hpseudo
  have hwbc : (wouldBeInCheck b m).1 = false := by
    rw [← wouldBeInCheck_fst_congr hb0 m]
    exact hwbc0
  rw [wouldBeInCheck_fst] at hwbc
  rw [hfrom, hcolor] at hwbc
  cases hcast : m.isCastling
  case false =>
    by_cases hpromo : m.promotion = PieceType.None
    · -- a normal move (including en passant): the mutated board has the
      -- shape of the simulated board, whose king is safe by hypothesis
      rw [isInCheck_congr (makeMoveBoard_shape_plain b m hcast hpromo)]
      unfold isInCheck
      dsimp only
      split
      · rfl
      · exact hwbc
    · -- a promotion: the destination square swaps the pawn for the chosen
      -- piece; neither is a king and both belong to the mover, so the king
      -- square and the attack scan are unchanged
      have hpawn : (getPiece b pos).type = PieceType.Pawn := pseudo_promo hpseudo hpromo
      have hsimto : (getPiece (simBoardOf b m) m.to_).type ≠ PieceType.King := by
        unfold simBoardOf
        dsimp only
        rw [getPiece_movePiece]
        by_cases hft : m.to_ = m.from_ ∧ m.to_.isValid = true
        · rw [if_pos hft]
          intro hcontra
          cases hcontra
        · rw [if_neg hft, if_pos ⟨rfl, hto⟩]
          split
          · next hEP =>
            rw [getPiece_removePiece, if_neg (fun hc => (hepgeo hEP).2 (by
              have := congrArg Position.col hc.1
              dsimp only at this
              exact this))]
            rw [hfrom]
            show (getPiece b pos).type ≠ PieceType.King
            rw [hpawn]
            intro hcontra
            cases hcontra
          · rw [hfrom]
            show (getPiece b pos).type ≠ PieceType.King
            rw [hpawn]
            intro hcontra
            cases hcontra
      rw [isInCheck_congr (makeMoveBoard_shape_promo b m hcast hpromo)]
      have hpredeq : ∀ p,
          ((getPiece (setPiece (simBoardOf b m) m.to_
              ((Piece.mk2 m.promotion (getPiece b m.from_).color).setMoved true)) p).type
                = PieceType.King ∧
           (getPiece (setPiece (simBoardOf b m) m.to_
              ((Piece.mk2 m.promotion (getPiece b m.from_).color).setMoved true)) p).color
                = turn) ↔
          ((getPiece (simBoardOf b m) p).type = PieceType.King ∧
           (getPiece (simBoardOf b m) p).color = turn) := by
        intro p
        rw [getPiece_setPiece]
        split
        · next hcase =>
          constructor
          · intro hcontra
            exact absurd hcontra.1 hpromoK
          · intro hcontra
            rw [hcase.1] at hcontra
            exact absurd hcontra.1 hsimto
        · exact Iff.rfl
      unfold isInCheck
      dsimp only
      rw [findKing_eq_of_pred_iff turn hpredeq]
      split
      · rfl
      · by_contra hcon
        rw [Bool.not_eq_false] at hcon
        have hstep := isAttacked_of_add_offcolor
          (show ((Piece.mk2 m.promotion (getPiece b m.from_).color).setMoved true).isEmpty
              = false by
            simp only [Piece.isEmpty, Piece.mk2, Piece.setMoved]
            simp [hpromo])
          (show ((Piece.mk2 m.promotion (getPiece b m.from_).color).setMoved true).color
              ≠ opponentOf turn by
            show (getPiece b m.from_).color ≠ opponentOf turn
            rw [hfrom, hcolor]
            exact self_ne_opponentOf turn)
          hcon
        rw [hwbc] at hstep
        cases hstep
  case true =>
    obtain ⟨hkingty, hpromoN, hepF, hdisj⟩ := hcastle hcast
    rw [hcolor] at hdisj
    have hposv : pos.isValid = true := pos_valid_of_nonempty (by
      rw [hkingty]
      intro hcontra
      cases hcontra)
    have hposv2 := (Position.isValid_iff pos).mp hposv
    have hsimB : simBoardOf b m = movePiece b m.from_ m.to_ := by
      unfold simBoardOf
      simp only [hepF, Bool.false_eq_true, if_false]
    have hgsim : ∀ p : Position, p ≠ m.from_ → p ≠ m.to_ →
        getPiece (simBoardOf b m) p = getPiece b p := by
      intro p h1 h2
      rw [hsimB, getPiece_movePiece, if_neg (fun hc => h1 hc.1),
        if_neg (fun hc => h2 hc.1)]
    have hfromsim : getPiece (simBoardOf b m) m.from_ = Piece.empty := by
      rw [hsimB, getPiece_movePiece, if_pos ⟨rfl, by rw [hfrom]; exact hposv⟩]
    rcases hdisj with ⟨hto6, hrook7, hemp5, hemp6, hsafe5, hsafe6⟩ |
        ⟨hto2, hrook0, hemp1, hemp2, hemp3, hsafe2, hsafe3⟩
    · -- kingside: king to (row,6), rook (row,7) -> (row,5)
      have hpc5 : pos.col ≠ 5 := by
        intro hc
        have hpe : (⟨pos.row, 5⟩ : Position) = pos := by rw [← hc]
        rw [hpe, hne] at hemp5
        cases hemp5
      have hpc6 : pos.col ≠ 6 := by
        intro hc
        have hpe : (⟨pos.row, 6⟩ : Position) = pos := by rw [← hc]
        rw [hpe, hne] at hemp6
        cases hemp6
      have hpc7 : pos.col ≠ 7 := by
        intro hc
        have hpe : (⟨pos.row, 7⟩ : Position) = pos := by rw [← hc]
        rw [hpe, hkingty] at hrook7
        cases hrook7
      have hdir : m.to_.col > m.from_.col := by
        rw [hto6, hfrom]
        dsimp only
        omega
      have htov : m.to_.isValid = true := hto
      have hfromto : m.to_ ≠ m.from_ := by
        rw [hto6, hfrom]
        intro hc
        have := congrArg Position.col hc
        dsimp only at this
        omega
      have hkingsim : getPiece (simBoardOf b m) m.to_ =
          (getPiece b m.from_).setMoved true := by
        rw [hsimB, getPiece_movePiece, if_neg (fun hc => hfromto hc.1),
          if_pos ⟨rfl, hto⟩]
      have hr7from : (⟨pos.row, 7⟩ : Position) ≠ m.from_ := by
        rw [hfrom]
        intro hc
        have := congrArg Position.col hc
        dsimp only at this
        omega
      have hr7to : (⟨pos.row, 7⟩ : Position) ≠ m.to_ := by
        rw [hto6]
        intro hc
        have := congrArg Position.col hc
        dsimp only at this
        omega
      have hr5from : (⟨pos.row, 5⟩ : Position) ≠ m.from_ := by
        rw [hfrom]
        intro hc
        have := congrArg Position.col hc
        dsimp only at this
        omega
      have hr5to : (⟨pos.row, 5⟩ : Position) ≠ m.to_ := by
        rw [hto6]
        intro hc
        have := congrArg Position.col hc
        dsimp only at this
        omega
      have hrooksim : getPiece (simBoardOf b m) ⟨pos.row, 7⟩ =
          getPiece b ⟨pos.row, 7⟩ := hgsim _ hr7from hr7to
      have huniq_sim : ∀ p, p.isValid = true →
          (getPiece (simBoardOf b m) p).type = PieceType.King →
          (getPiece (simBoardOf b m) p).color = turn → p = m.to_ := by
        intro p hpv hkt hkc
        by_cases hpf : p = m.from_
        · rw [hpf, hfromsim] at hkt
          cases hkt
        · by_cases hpt : p = m.to_
          · exact hpt
          · rw [hgsim p hpf hpt] at hkt hkc
            have := king_unique_of_count hone hpv hposv hkt hkc hkingty hcolor
            exact absurd (this.trans hfrom.symm) hpf
      have hfksim : findKing (simBoardOf b m) turn = m.to_ :=
        findKing_eq_of_unique _ _ _ htov
          ⟨by rw [hkingsim]; show (getPiece b m.from_).type = PieceType.King;
              rw [hfrom]; exact hkingty,
           by rw [hkingsim]; show (getPiece b m.from_).color = turn;
              rw [hfrom]; exact hcolor⟩
          huniq_sim
      rw [hfksim] at hwbc
      have hrookc : (getPiece b ⟨pos.row, 7⟩).color ≠ opponentOf turn := by
        intro hc
        have hatk : attackFrom b (opponentOf turn) ⟨pos.row, 7⟩ ⟨pos.row, 6⟩ = true := by
          unfold attackFrom
          dsimp only
          simp only [hrook7]
          rw [if_pos ⟨Or.inl (by omega), by omega⟩]
          have hsteps : max ((⟨pos.row, 6⟩ : Position).row - (⟨pos.row, 7⟩ : Position).row).natAbs
              ((⟨pos.row, 6⟩ : Position).col - (⟨pos.row, 7⟩ : Position).col).natAbs = 1 := by
            dsimp only
            omega
          rw [hsteps]
          rfl
        have hattacked : isAttacked b ⟨pos.row, 6⟩ (opponentOf turn) = true := by
          unfold isAttacked
          rw [List.any_eq_true]
          refine ⟨⟨pos.row, 7⟩, ?_, hatk⟩
          rw [mem_findPieces]
          exact ⟨by rw [Position.isValid_mk]; omega, hc⟩
        rw [hsafe6] at hattacked
        cases hattacked
      have hshape := makeMoveBoard_shape_castle b m hcast
      rw [if_pos hdir, if_pos hdir, hfrom] at hshape
      rw [isInCheck_congr hshape]
      have hMpredeq : ∀ p,
          ((getPiece (movePiece (simBoardOf b m) ⟨pos.row, 7⟩ ⟨pos.row, 5⟩) p).type
              = PieceType.King ∧
           (getPiece (movePiece (simBoardOf b m) ⟨pos.row, 7⟩ ⟨pos.row, 5⟩) p).color
              = turn) ↔
          ((getPiece (simBoardOf b m) p).type = PieceType.King ∧
           (getPiece (simBoardOf b m) p).color = turn) := by
        intro p
        rw [getPiece_movePiece]
        split
        · next hcase =>
          constructor
          · intro hcontra
            cases hcontra.1
          · intro hcontra
            rw [hcase.1, hrooksim, hrook7] at hcontra
            cases hcontra.1
        · next hcase1 =>
          split
          · next hcase =>
            constructor
            · intro hcontra
              have : (getPiece b ⟨pos.row, 7⟩).type = PieceType.King := by
                rw [← hrooksim]
                exact hcontra.1
              rw [hrook7] at this
              cases this
            · intro hcontra
              rw [hcase.1] at hcontra
              rw [hgsim _ hr5from hr5to] at hcontra
              have h5e := (Piece.isEmpty_iff _).mp hemp5
              rw [h5e] at hcontra
              cases hcontra.1
          · exact Iff.rfl
      unfold isInCheck
      dsimp only
      rw [findKing_eq_of_pred_iff turn hMpredeq, hfksim]
      split
      · rfl
      · by_contra hcon
        rw [Bool.not_eq_false] at hcon
        rw [show movePiece (simBoardOf b m) ⟨pos.row, 7⟩ ⟨pos.row, 5⟩ =
            setPiece (setPiece (simBoardOf b m) ⟨pos.row, 5⟩
              ((getPiece (simBoardOf b m) ⟨pos.row, 7⟩).setMoved true))
              ⟨pos.row, 7⟩ Piece.empty from rfl] at hcon
        have hstep1 := isAttacked_of_remove_corner (opponentOf_ne_none turn)
          (Or.inl ⟨rfl, by rw [hto6]; dsimp only; omega⟩) hcon
        have hstep2 := isAttacked_of_add_offcolor
          (show ((getPiece (simBoardOf b m) ⟨pos.row, 7⟩).setMoved true).isEmpty
              = false by
            rw [hrooksim]
            simp only [Piece.isEmpty, Piece.setMoved]
            simp [hrook7])
          (show ((getPiece (simBoardOf b m) ⟨pos.row, 7⟩).setMoved true).color
              ≠ opponentOf turn by
            rw [hrooksim]
            exact hrookc)
          hstep1
        rw [hwbc] at hstep2
        cases hstep2
    · -- queenside: king to (row,2), rook (row,0) -> (row,3)
      have hpc0 : pos.col ≠ 0 := by
        intro hc
        have hpe : (⟨pos.row, 0⟩ : Position) = pos := by rw [← hc]
        rw [hpe, hkingty] at hrook0
        cases hrook0
      have hpc1 : pos.col ≠ 1 := by
        intro hc
        have hpe : (⟨pos.row, 1⟩ : Position) = pos := by rw [← hc]
        rw [hpe, hne] at hemp1
        cases hemp1
      have hpc2 : pos.col ≠ 2 := by
        intro hc
        have hpe : (⟨pos.row, 2⟩ : Position) = pos := by rw [← hc]
        rw [hpe, hne] at hemp2
        cases hemp2
      have hpc3 : pos.col ≠ 3 := by
        intro hc
        have hpe : (⟨pos.row, 3⟩ : Position) = pos := by rw [← hc]
        rw [hpe, hne] at hemp3
        cases hemp3
      have hdir : ¬(m.to_.col > m.from_.col) := by
        rw [hto2, hfrom]
        dsimp only
        omega
      have htov : m.to_.isValid = true := hto
      have hfromto : m.to_ ≠ m.from_ := by
        rw [hto2, hfrom]
        intro hc
        have := congrArg Position.col hc
        dsimp only at this
        omega
      have hkingsim : getPiece (simBoardOf b m) m.to_ =
          (getPiece b m.from_).setMoved true := by
        rw [hsimB, getPiece_movePiece, if_neg (fun hc => hfromto hc.1),
          if_pos ⟨rfl, hto⟩]
      have hr0from : (⟨pos.row, 0⟩ : Position) ≠ m.from_ := by
        rw [hfrom]
        intro hc
        have := congrArg Position.col hc
        dsimp only at this
        omega
      have hr0to : (⟨pos.row, 0⟩ : Position) ≠ m.to_ := by
        rw [hto2]
        intro hc
        have := congrArg Position.col hc
        dsimp only at this
        omega
      have hr3from : (⟨pos.row, 3⟩ : Position) ≠ m.from_ := by
        rw [hfrom]
        intro hc
        have := congrArg Position.col hc
        dsimp only at this
        omega
      have hr3to : (⟨pos.row, 3⟩ : Position) ≠ m.to_ := by
        rw [hto2]
        intro hc
        have := congrArg Position.col hc
        dsimp only at this
        omega
      have hrooksim : getPiece (simBoardOf b m) ⟨pos.row, 0⟩ =
          getPiece b ⟨pos.row, 0⟩ := hgsim _ hr0from hr0to
      have huniq_sim : ∀ p, p.isValid = true →
          (getPiece (simBoardOf b m) p).type = PieceType.King →
          (getPiece (simBoardOf b m) p).color = turn → p = m.to_ := by
        intro p hpv hkt hkc
        by_cases hpf : p = m.from_
        · rw [hpf, hfromsim] at hkt
          cases hkt
        · by_cases hpt : p = m.to_
          · exact hpt
          · rw [hgsim p hpf hpt] at hkt hkc
            have := king_unique_of_count hone hpv hposv hkt hkc hkingty hcolor
            exact absurd (this.trans hfrom.symm) hpf
      have hfksim : findKing (simBoardOf b m) turn = m.to_ :=
        findKing_eq_of_unique _ _ _ htov
          ⟨by rw [hkingsim]; show (getPiece b m.from_).type = PieceType.King;
              rw [hfrom]; exact hkingty,
           by rw [hkingsim]; show (getPiece b m.from_).color = turn;
              rw [hfrom]; exact hcolor⟩
          huniq_sim
      rw [hfksim] at hwbc
      have hrookc : (getPiece b ⟨pos.row, 0⟩).color ≠ opponentOf turn := by
        intro hc
        have hatk : attackFrom b (opponentOf turn) ⟨pos.row, 0⟩ ⟨pos.row, 2⟩ = true := by
          unfold attackFrom
          dsimp only
          simp only [hrook0]
          rw [if_pos ⟨Or.inl (by omega), by omega⟩]
          have hsteps : max ((⟨pos.row, 2⟩ : Position).row - (⟨pos.row, 0⟩ : Position).row).natAbs
              ((⟨pos.row, 2⟩ : Position).col - (⟨pos.row, 0⟩ : Position).col).natAbs = 2 := by
            dsimp only
            omega
          rw [hsteps]
          unfold pathClear
          rw [List.all_eq_true]
          intro i hi
          rw [List.mem_range'_1] at hi
          have hi1 : i = 1 := by omega
          subst hi1
          rw [if_pos (by dsimp only; omega : (⟨pos.row, 2⟩ : Position).row -
            (⟨pos.row, 0⟩ : Position).row = 0)]
          rw [if_neg (by dsimp only; omega : ¬((⟨pos.row, 2⟩ : Position).col -
            (⟨pos.row, 0⟩ : Position).col = 0))]
          rw [if_pos (by dsimp only; omega : (⟨pos.row, 2⟩ : Position).col -
            (⟨pos.row, 0⟩ : Position).col > 0)]
          have hsq : (⟨(⟨pos.row, 0⟩ : Position).row + ((1 : Nat) : Int) * 0,
              (⟨pos.row, 0⟩ : Position).col + ((1 : Nat) : Int) * 1⟩ : Position) =
              (⟨pos.row, 1⟩ : Position) := by
            rw [Position.mk.injEq]
            refine ⟨by dsimp only; omega, by dsimp only; omega⟩
          rw [hsq]
          exact hemp1
        have hattacked : isAttacked b ⟨pos.row, 2⟩ (opponentOf turn) = true := by
          unfold isAttacked
          rw [List.any_eq_true]
          refine ⟨⟨pos.row, 0⟩, ?_, hatk⟩
          rw [mem_findPieces]
          exact ⟨by rw [Position.isValid_mk]; omega, hc⟩
        rw [hsafe2] at hattacked
        cases hattacked
      have hshape := makeMoveBoard_shape_castle b m hcast
      rw [if_neg hdir, if_neg hdir, hfrom] at hshape
      rw [isInCheck_congr hshape]
      have hMpredeq : ∀ p,
          ((getPiece (movePiece (simBoardOf b m) ⟨pos.row, 0⟩ ⟨pos.row, 3⟩) p).type
              = PieceType.King ∧
           (getPiece (movePiece (simBoardOf b m) ⟨pos.row, 0⟩ ⟨pos.row, 3⟩) p).color
              = turn) ↔
          ((getPiece (simBoardOf b m) p).type = PieceType.King ∧
           (getPiece (simBoardOf b m) p).color = turn) := by
        intro p
        rw [getPiece_movePiece]
        split
        · next hcase =>
          constructor
          · intro hcontra
            cases hcontra.1
          · intro hcontra
            rw [hcase.1, hrooksim, hrook0] at hcontra
            cases hcontra.1
        · next hcase1 =>
          split
          · next hcase =>
            constructor
            · intro hcontra
              have : (getPiece b ⟨pos.row, 0⟩).type = PieceType.King := by
                rw [← hrooksim]
                exact hcontra.1
              rw [hrook0] at this
              cases this
            · intro hcontra
              rw [hcase.1] at hcontra
              rw [hgsim _ hr3from hr3to] at hcontra
              have h3e := (Piece.isEmpty_iff _).mp hemp3
              rw [h3e] at hcontra
              cases hcontra.1
          · exact Iff.rfl
      unfold isInCheck
      dsimp only
      rw [findKing_eq_of_pred_iff turn hMpredeq, hfksim]
      split
      · rfl
      · by_contra hcon
        rw [Bool.not_eq_false] at hcon
        rw [show movePiece (simBoardOf b m) ⟨pos.row, 0⟩ ⟨pos.row, 3⟩ =
            setPiece (setPiece (simBoardOf b m) ⟨pos.row, 3⟩
              ((getPiece (simBoardOf b m) ⟨pos.row, 0⟩).setMoved true))
              ⟨pos.row, 0⟩ Piece.empty from rfl] at hcon
        have hstep1 := isAttacked_of_remove_corner (opponentOf_ne_none turn)
          (Or.inr ⟨rfl, by rw [hto2]; dsimp only; omega⟩) hcon
        have hstep2 := isAttacked_of_add_offcolor
          (show ((getPiece (simBoardOf b m) ⟨pos.row, 0⟩).setMoved true).isEmpty
              = false by
            rw [hrooksim]
            simp only [Piece.isEmpty, Piece.setMoved]
            simp [hrook0])
          (show ((getPiece (simBoardOf b m) ⟨pos.row, 0⟩).setMoved true).color
              ≠ opponentOf turn by
            rw [hrooksim]
            exact hrookc)
          hstep1
        rw [hwbc] at hstep2
        cases hstep2

end ChessLogic


/-- A board carrying TWO white kings (e4-area and a7-area), a white rook on
    the a-file between them, and a black rook behind on a1; all castling
    flags still set.  Constructible through the public Board interface. -/
def twoKingsBoard : Board :=
  ⟨fun p =>
      if p = ⟨1, 0⟩ then Piece.mk2 PieceType.King Color.White
      else if p = ⟨3, 0⟩ then Piece.mk2 PieceType.Rook Color.White
      else if p = ⟨3, 4⟩ then Piece.mk2 PieceType.King Color.White
      else if p = ⟨7, 0⟩ then Piece.mk2 PieceType.Rook Color.Black
      else Piece.empty,
    ⟨-1, -1⟩, ⟨true, true, true, true⟩⟩

/-- The queenside-style castle of the second white king, (3,4) to (3,2). -/
def castleIntoCheck : Move := ⟨⟨3, 4⟩, ⟨3, 2⟩, PieceType.None, false, true, false⟩

/-- C2 counterexample: the claim promises that executing any generated
    legal move never leaves the mover's king attacked, on EVERY board.  On
    `twoKingsBoard` the castle (3,4)->(3,2) is generated as legal (the
    legality probe watches the FIRST king in scan order, which is safe),
    but executing it relocates the castling rook off the a-file, unblocking
    the black rook's attack on that first king: after `makeMove`'s board
    mutations the mover IS in check. -/
theorem C2_castle_can_leave_king_attacked :
    castleIntoCheck ∈ (ChessLogic.getLegalMoves twoKingsBoard Color.White ⟨3, 4⟩).1 ∧
    ChessLogic.isInCheck (ChessLogic.makeMoveBoard twoKingsBoard castleIntoCheck)
      Color.White = true :=
  ⟨by decide, by decide⟩

/-- C2 (amended with the at-most-one-king hypothesis): on every board with
    at most one king of the moving color - true of every position reachable
    from `initialize` - each move returned by `getLegalMoves` (and by
    `getAllLegalMoves`) leaves, after `makeMove`'s board mutations, a
    position in which the mover's king is not attacked by the opponent
    (`isInCheck` is false). -/
theorem C2_legal_moves_never_leave_king_attacked (b : Board) (turn : Color)
    (hone : Board.kingCount b turn ≤ 1) :
    (∀ (pos : Position) (m : Move), m ∈ (ChessLogic.getLegalMoves b turn pos).1 →
      ChessLogic.isInCheck (ChessLogic.makeMoveBoard b m) turn = false) ∧
    (∀ m : Move, m ∈ (ChessLogic.getAllLegalMoves b turn).1 →
      ChessLogic.isInCheck (ChessLogic.makeMoveBoard b m) turn = false) := by
  constructor
  · intro pos m hm
    exact ChessLogic.legal_move_keeps_king_safe b turn pos m hone hm
  · intro m hm
    unfold ChessLogic.getAllLegalMoves at hm
    obtain ⟨pos, b0, hb0, hmem⟩ := ChessLogic.mem_allScan turn _ b hm
    have hone0 : Board.kingCount b0 turn ≤ 1 := by
      rw [kingCount_congr hb0 turn]
      exact hone
    have h0 := ChessLogic.legal_move_keeps_king_safe b0 turn pos m hone0 hmem
    rw [← ChessLogic.isInCheck_congr (ChessLogic.makeMoveBoard_congr hb0 m) turn]
    exact h0

/-- Witness for the C2 amended theorem: the king-rook-king board has one
    white king, the king step e1-e2 is among its legal moves, and executing
    it leaves White not in check. -/
theorem C2_legal_moves_never_leave_king_attacked_witness :
    Board.kingCount boardKRK Color.White ≤ 1 ∧
    kingE1E2 ∈ (ChessLogic.getLegalMoves boardKRK Color.White ⟨7, 4⟩).1 ∧
    ChessLogic.isInCheck (ChessLogic.makeMoveBoard boardKRK kingE1E2) Color.White
      = false :=
  ⟨by decide, by decide,
    (C2_legal_moves_never_leave_king_attacked boardKRK Color.White (by decide)).1
      ⟨7, 4⟩ kingE1E2 (by decide)⟩

end Chess
